import Mathlib

/-!
# blc plugin: interactive decompiled-view session manager

A shallow embedding of `src/plugin.cc` (the Ghidra-decompiler view plugin) and
theorems about its title registry, name-sync table, rename handler and
navigation bookkeeping.
-/

namespace Blc

/-! ## Title registry: `get_available_title` (plugin.cc 108-130) -/

/-- The bytes of a `std::string` title; `'A'` is 65 and `'Z'` is 90. -/
abbrev Title := List Nat

/-- The character buffer of the local `std::string title`: the `length()` characters
followed by the terminator slot, which is what `title[title.length()]` addresses. The
source increments that slot when the carry runs off the end, so the slot is part of the
state. `char` arithmetic never leaves 0..91 here, so bytes are plain naturals. -/
structure TitleBuf where
  chars : List Nat
  term : Nat
deriving DecidableEq, Repr

/-- Read `title[i]`; index `length()` is the terminator slot. Larger indices are never
formed by the loop. -/
def TitleBuf.get (t : TitleBuf) (i : Nat) : Nat :=
  if i < t.chars.length then t.chars.getD i 0 else t.term

/-- Write `title[i] = v`; index `length()` is the terminator slot. -/
def TitleBuf.set (t : TitleBuf) (i v : Nat) : TitleBuf :=
  if i < t.chars.length then { t with chars := t.chars.set i v } else { t with term := v }

/-- `title.push_back(c)`: stores `c` at index `length()`, grows the string by one and
writes a fresh terminator. -/
def TitleBuf.push_back (t : TitleBuf) (c : Nat) : TitleBuf :=
  { chars := t.chars ++ [c], term := 0 }

/-- The inner `while (true)` of `get_available_title`, entered at index `i`. The first
argument bounds the number of rounds; the loop breaks at the latest at `i = length()`,
so `length() + 1` rounds from `i = 0` are never exhausted. -/
def inner_loop : Nat → TitleBuf → Nat → TitleBuf
  | 0, t, _ => t
  | n + 1, t, i =>
    let t1 := t.set i (t.get i + 1)
    if 90 < t1.get i then
      let t2 := t1.set i 65
      if t2.chars.length = i then t2.push_back 65
      else inner_loop n t2 (i + 1)
    else t1

/-- One round of the outer loop body: `int i = 0; while (true) { ... }`. -/
def next_title (t : TitleBuf) : TitleBuf :=
  inner_loop (t.chars.length + 1) t 0

/-- The outer `while (titles.find(title) != titles.end())` loop, with a bound on the
number of tests of the condition; `none` means the bound was reached. -/
def title_loop (titles : Finset Title) : Nat → TitleBuf → Option TitleBuf
  | 0, _ => none
  | fuel + 1, t =>
    if t.chars ∈ titles then title_loop titles fuel (next_title t) else some t

/-- A number of rounds that always suffices for the outer loop: with `L` the length of
the longest allocated title, the loop leaves every length up to `L` within
`91 * 26 ^ (L + 1)` rounds. -/
def title_fuel (titles : Finset Title) : Nat :=
  91 * 26 ^ (titles.sup List.length + 1)

/-- `get_available_title()`: start from `string title("A")` and run the outer loop.
The result is `none` only if the loop did not finish within `title_fuel` rounds, which
`get_available_title_isSome` excludes. -/
def get_available_title (titles : Finset Title) : Option Title :=
  (title_loop titles (title_fuel titles) { chars := [65], term := 0 }).map TitleBuf.chars

/-- Dictionary (lexicographic) order on byte strings: a proper prefix comes first,
otherwise the first differing byte decides (`std::string::operator<`). -/
def lex_lt : List Nat → List Nat → Bool
  | _, [] => false
  | [], _ :: _ => true
  | a :: as, b :: bs => a < b || (a == b && lex_lt as bs)

/-- Length-first lexicographic order (shortlex): shorter strings first, strings of one
length in dictionary order. -/
def shortlex_lt (a b : List Nat) : Bool :=
  a.length < b.length || (a.length == b.length && lex_lt a b)

/-- The 26 single-letter titles "A".."Z" together with "AA". -/
def ex_letters_and_AA : Finset Title :=
  insert [65, 65] ((Finset.range 26).image fun i => [65 + i])

/-- A title over the alphabet `A`-`Z`. -/
def is_upper_title (a : Title) : Prop := ∀ c ∈ a, 65 ≤ c ∧ c ≤ 90

instance (a : Title) : Decidable (is_upper_title a) := by
  unfold is_upper_title; infer_instance

/-- Value of a title read as a base-26 number with the FIRST character least
significant, which is the digit order of the odometer. -/
def title_val : Title → Nat
  | [] => 0
  | c :: cs => (c - 65) + 26 * title_val cs

/-- The odometer's enumeration order: shorter titles first, and among titles of one
length the one with the smaller `title_val`. -/
def odo_lt (a b : Title) : Prop :=
  a.length < b.length ∨ (a.length = b.length ∧ title_val a < title_val b)

instance (a b : Title) : Decidable (odo_lt a b) := by
  unfold odo_lt; infer_instance

/-- The successor of the odometer on the characters from some index on: the effect of
the inner loop on the part of the buffer it has not yet passed, given the terminator
slot. Used to describe `inner_loop` in closed form (`inner_loop_eq`). -/
def odo_succ : List Nat → Nat → TitleBuf
  | [], term => if 90 < term + 1 then ⟨[65], 0⟩ else ⟨[], term + 1⟩
  | c :: cs, term =>
    if 90 < c + 1 then ⟨65 :: (odo_succ cs term).chars, (odo_succ cs term).term⟩
    else ⟨(c + 1) :: cs, term⟩

/-- Number of odometer states with fewer than `n` characters (91 terminator values for
each string). -/
def odo_pos : Nat → Nat
  | 0 => 0
  | n + 1 => odo_pos n + 91 * 26 ^ n

/-- Position of a buffer in the odometer's run. -/
def odo_rank (t : TitleBuf) : Nat :=
  odo_pos t.chars.length + t.term * 26 ^ t.chars.length + title_val t.chars

/-- A buffer the loop can hold: letters `A`-`Z` and a terminator slot not above `'Z'`. -/
def TitleBuf.ok (t : TitleBuf) : Prop := is_upper_title t.chars ∧ t.term ≤ 90

/-! ## Byte-string helpers used by the plugin -/

/-- The `ea_t` value `BADADDR` (all bits set, 64-bit addresses). -/
def BADADDR : Nat := 2 ^ 64 - 1

/-- The byte `buf[i]` of a NUL-terminated string: index `length()` holds the terminator. -/
def byte_at (buf : List Char) (i : Nat) : Char := buf.getD i (Char.ofNat 0)

/-- The test `qisalnum(c) || c == '_'` of `get_current_word` (C locale: ASCII letters
and digits). -/
def is_word_char (c : Char) : Bool := c.isAlphanum || c == '_'

/-- The loop `while ((qisalnum(*end) || *end == '_') && *end != '\0') end++;` with `end`
as an index into the buffer; the first argument bounds the number of rounds. -/
def scan_end (buf : List Char) : Nat → Nat → Nat
  | 0, e => e
  | n + 1, e =>
    if is_word_char (byte_at buf e) && byte_at buf e != Char.ofNat 0 then scan_end buf n (e + 1)
    else e

/-- The loop `while (ptr > buf.begin() && (qisalnum(ptr[-1]) || ptr[-1] == '_')) ptr--;`
with `ptr` as an index; the first argument bounds the number of rounds. -/
def scan_begin (buf : List Char) : Nat → Nat → Nat
  | 0, p => p
  | n + 1, p =>
    if 0 < p && is_word_char (byte_at buf (p - 1)) then scan_begin buf n (p - 1) else p

/-- The part of `get_current_word` after the cursor place and the line have been
fetched: `buf` is the tag-free current line, `x` the column. The comparison
`x >= buf.length()` is made in `size_t`, so a negative `x` fails it. -/
def get_current_word (buf : List Char) (x : Int) : Option (List Char) :=
  if x < 0 ∨ buf.length ≤ x.toNat then none
  else
    let ptr := x.toNat
    let e := scan_end buf (buf.length + 1) ptr
    if e = ptr then none
    else
      let p := scan_begin buf (buf.length + 1) ptr
      some ((buf.drop p).take (e - p))

/-- Search of `std::string::find(pat)` from position `i` on: the index of the first
occurrence, `none` for `npos`. -/
def find_from (pat : List Char) : List Char → Nat → Option Nat
  | [], i => if pat.isEmpty then some i else none
  | c :: cs, i => if pat.isPrefixOf (c :: cs) then some i else find_from pat cs (i + 1)

/-- The call `s.find(pat)`. -/
def string_find (s pat : List Char) : Option Nat := find_from pat s 0

/-- C `isspace` in the C locale. -/
def is_space (c : Char) : Bool :=
  c == ' ' || (9 ≤ c.toNat && c.toNat ≤ 13)

/-- Value of a digit character in bases up to 36, as `strtoul` reads it. -/
def digit_val (c : Char) : Option Nat :=
  if 48 ≤ c.toNat ∧ c.toNat ≤ 57 then some (c.toNat - 48)
  else if 97 ≤ c.toNat ∧ c.toNat ≤ 122 then some (c.toNat - 97 + 10)
  else if 65 ≤ c.toNat ∧ c.toNat ≤ 90 then some (c.toNat - 65 + 10)
  else none

/-- The longest run of digits valid in `base`, accumulated without bound. -/
def parse_digits (base : Nat) : List Char → Nat → Nat
  | [], acc => acc
  | c :: cs, acc =>
    match digit_val c with
    | some d => if d < base then parse_digits base cs (acc * base + d) else acc
    | none => acc

/-- C `strtoul(s, NULL, 0)` with a 64-bit `unsigned long`: leading white space, an
optional sign, base detection (`0x` hexadecimal when a hexadecimal digit follows, `0`
octal, else decimal), the longest valid digit run (0 when there is none), clamping to
`ULONG_MAX` on overflow and negation modulo `2^64` after a minus sign. -/
def strtoul0 (s : List Char) : Nat :=
  let s1 := s.dropWhile is_space
  let neg := s1.head? == some '-'
  let s2 := if s1.head? == some '-' || s1.head? == some '+' then s1.tail else s1
  let hex := s2.head? == some '0' && (s2.tail.head? == some 'x' || s2.tail.head? == some 'X')
    && ((s2.tail.tail.head?.bind digit_val).any fun d => d < 16)
  let v :=
    if hex then parse_digits 16 s2.tail.tail 0
    else if s2.head? == some '0' then parse_digits 8 s2 0
    else parse_digits 10 s2 0
  if 2 ^ 64 - 1 < v then 2 ^ 64 - 1
  else if neg then (2 ^ 64 - v) % 2 ^ 64
  else v

/-- One upper-case hexadecimal digit. -/
def hex_digit (d : Nat) : Char :=
  if d < 10 then Char.ofNat (48 + d) else Char.ofNat (55 + d)

/-- Hexadecimal digits of `n`, most significant first; the first argument bounds the
number of digits. -/
def hex_digits : Nat → Nat → List Char
  | 0, _ => []
  | f + 1, n => if n < 16 then [hex_digit n] else hex_digits f (n / 16) ++ [hex_digit (n % 16)]

/-- The text `iname.sprnt("var_%X", v)` for an `unsigned int` argument `v < 2^32`
(at most eight digits). -/
def var_name (v : Nat) : String :=
  String.mk ("var_".data ++ hex_digits 8 v)

/-! ## Finite maps (`std::map`) as lookup functions -/

/-- The container `std::map<K, V>` seen through `find`: `none` when the key is absent. -/
abbrev CMap (α β : Type) := α → Option β

/-- The empty map. -/
def CMap.empty {α β : Type} : CMap α β := fun _ => none

/-- The assignment `m[k] = v`. -/
def CMap.set {α β : Type} [DecidableEq α] (m : CMap α β) (k : α) (v : β) : CMap α β :=
  fun j => if j = k then some v else m j

/-- The call `m.erase(k)`. -/
def CMap.erase {α β : Type} [DecidableEq α] (m : CMap α β) (k : α) : CMap α β :=
  fun j => if j = k then none else m j

/-! ## The syntax tree consumed by the plugin -/

/-- Modelled from the spec: a statement of the function body (`Statement` of `ast.hh`,
which is not among the sources). A variable declaration is a statement kind, the one
for which `dynamic_cast<VarDecl*>` succeeds, and carries the declared name
(`getName()`); every other statement carries the identifier occurrences in it. -/
inductive Statement where
  | decl (name : String) : Statement
  | other (idents : List String) : Statement
deriving DecidableEq, Repr

/-- Modelled from the spec: the syntax tree `Function` of `ast.hh` (not among the
sources): a prototype with ordered parameter declarations (`prototype.parameters`,
each by its declared name) and a body that is an ordered statement sequence
(`block.block`). -/
structure Function where
  parameters : List String
  block : List Statement
deriving DecidableEq, Repr

/-- Rename one identifier occurrence. -/
def rename_ident (oldname newname : String) (x : String) : String :=
  if x = oldname then newname else x

/-- Modelled from the spec: renaming every occurrence of an identifier in a statement. -/
def Statement.rename (oldname newname : String) : Statement → Statement
  | .decl n => .decl (rename_ident oldname newname n)
  | .other ids => .other (ids.map (rename_ident oldname newname))

/-- Modelled from the spec: `Function::rename(oldname, newname)`, "renaming every
occurrence of an identifier" in the prototype and the body. -/
def Function.rename (f : Function) (oldname newname : String) : Function :=
  { parameters := f.parameters.map (rename_ident oldname newname)
    block := f.block.map (Statement.rename oldname newname) }

/-- The identifier occurrences of a statement. -/
def Statement.idents : Statement → List String
  | .decl n => [n]
  | .other ids => ids

/-- All identifier occurrences of a tree, in order. -/
def Function.idents (f : Function) : List String :=
  f.parameters ++ (f.block.map Statement.idents).flatten

/-- Modelled from the spec: the two services of `ast.hh` whose bodies the plugin only
calls: `is_reserved` (the reserved words of the decompiler's output language) and
`Function::print`, the linearized textual rendering of a tree as an ordered sequence
of lines. Both are left uninterpreted. -/
structure AstLib where
  is_reserved : String → Bool
  print : Function → List String

/-! ## The host database -/

/-- The fields of IDA's `func_t` that the plugin reads. -/
structure func_t where
  start_ea : Nat
  end_ea : Nat
  frregs : Nat
deriving DecidableEq, Repr

/-- The host database as the plugin observes it. Queries are lookup functions; each
fallible update has a field giving the outcome the host reports for it.
* `get_func addr`: the function containing `addr`;
* `get_name_ea from name`: the address `name` resolves to, `BADADDR` if none;
* `frame_off_retaddr func`: the frame offset of the return address;
* `get_member func off`: the name (`get_member_name`) of the member that
  `get_member(get_frame(func), off)` finds, `none` for a null result;
* `hashstr ea idx`: the string stored under `idx` in the hash of `netnode(ea)`;
* `is_extern_seg ea`: whether the segment of `ea` is named `extern`. -/
structure World where
  get_func : Nat → Option func_t
  get_name_ea : Nat → String → Nat
  frame_off_retaddr : func_t → Nat
  get_member : func_t → Nat → Option String
  hashstr : Nat → String → Option String
  is_extern_seg : Nat → Bool
  add_struc_member_ok : func_t → String → Nat → Bool
  set_member_name_ok : func_t → Nat → String → Bool
  set_name_ok : Nat → String → Bool

/-- The call `add_struc_member(get_frame(func), name, off, byte_flag(), NULL, 1)`; the
Boolean is `result == 0`. On success the frame has a member `name` at `off`. -/
def World.add_struc_member (wd : World) (func : func_t) (name : String) (off : Nat) :
    World × Bool :=
  if wd.add_struc_member_ok func name off then
    ({ wd with get_member := fun f o => if f = func ∧ o = off then some name else wd.get_member f o },
      true)
  else (wd, false)

/-- The call `set_member_name(get_frame(func), off, name)`. On success the member at
`off` carries the new name. -/
def World.set_member_name (wd : World) (func : func_t) (off : Nat) (name : String) :
    World × Bool :=
  if wd.set_member_name_ok func off name then
    ({ wd with get_member := fun f o => if f = func ∧ o = off then some name else wd.get_member f o },
      true)
  else (wd, false)

/-- The call `netnode(ea).hashset(idx, value)`. -/
def World.hashset (wd : World) (ea : Nat) (idx value : String) : World :=
  { wd with hashstr := fun e i => if e = ea ∧ i = idx then some value else wd.hashstr e i }

/-- The call `set_name(ea, name)`. On success `name` resolves to `ea` and the names
that resolved to `ea` before no longer do. -/
def World.set_name (wd : World) (ea : Nat) (name : String) : World × Bool :=
  if wd.set_name_ok ea name then
    ({ wd with get_name_ea := fun frm n =>
          if n = name then ea else if wd.get_name_ea frm n = ea then BADADDR
          else wd.get_name_ea frm n },
      true)
  else (wd, false)

/-- The wrapper `is_function_start(ea)` (plugin.cc 799-802). -/
def is_function_start (wd : World) (ea : Nat) : Bool :=
  match wd.get_func ea with
  | some f => f.start_ea == ea
  | none => false

/-- The wrapper `is_extern_addr(ea)` (plugin.cc 836-846). -/
def is_extern_addr (wd : World) (ea : Nat) : Bool := wd.is_extern_seg ea

/-! ## Sessions and the global tables -/

/-- A view handle (`TWidget*`). -/
abbrev TWidget := Nat

/-- The record `struct LocalVar`. -/
structure LocalVar where
  ghidra_name : String
  current_name : String
  offset : Nat
deriving DecidableEq, Repr

/-- The record `struct Decompiled`. Every `LocalVar*` stored in `locals` points to an
object of its own (each comes from one `new LocalVar` and is stored under one key at a
time), so the table maps keys to the records themselves. -/
structure Decompiled where
  ast : Function
  ida_func : func_t
  locals : CMap String LocalVar

/-- Calls to the host that later properties care about, in the order they are made. -/
inductive Effect where
  | do_decompile (start_ea end_ea : Nat) : Effect
  | jumpto (ea : Nat) : Effect
  | close_widget (w : TWidget) : Effect
  | create_custom_viewer (w : TWidget) (title : Title) : Effect
deriving DecidableEq, Repr

/-- The plugin's global tables (`histories`, `views`, `function_map`, `titles`), the
lines each custom viewer displays (its `strvec_t` user data), the host database and
the log of host calls. -/
structure State where
  world : World
  histories : CMap TWidget (List Nat)
  views : CMap TWidget Title
  function_map : CMap TWidget Decompiled
  titles : Finset Title
  text : CMap TWidget (List String)
  effects : List Effect

/-- The state right after the plugin is loaded: all tables empty. -/
def State.init (wd : World) : State :=
  { world := wd, histories := CMap.empty, views := CMap.empty, function_map := CMap.empty,
    titles := ∅, text := CMap.empty, effects := [] }

/-- What the host and the user supply during one callback: the cursor place
(`get_custom_viewer_place`, `none` for a null result), the answer to `ask_str`
(`none` when cancelled), the answer to `ask_addr`, the tree `do_decompile` delivers
(`none` when it delivers none) and the widget `create_custom_viewer` returns. -/
structure Inputs where
  place : Option (Int × Nat)
  ask_str : Option String
  ask_addr : Option Nat
  decompiled : Option Function
  new_widget : TWidget

/-! ## Population of the name table (plugin.cc 641-713) -/

/-- The function `map_var_from_decl(dec, decl)` with `gname = decl->getName()`. -/
def map_var_from_decl (wd : World) (dec : Decompiled) (gname : String) : World × Decompiled :=
  let func := dec.ida_func
  let ra := wd.frame_off_retaddr func
  match string_find gname.data "Stack".data with
  | some stack =>
    let stackoff := strtoul0 (gname.data.drop (stack + 5)) % 2 ^ 32
    let off := (ra + 2 ^ 64 - stackoff) % 2 ^ 64
    match wd.get_member func off with
    | some iname =>
      (wd, { dec with
              ast := dec.ast.rename gname iname
              locals := dec.locals.set iname { ghidra_name := gname, current_name := iname, offset := off } })
    | none =>
      let iname := var_name ((stackoff + 2 ^ 32 - func.frregs % 2 ^ 16) % 2 ^ 32)
      match wd.add_struc_member func iname off with
      | (wd1, true) =>
        (wd1, { dec with
                 ast := dec.ast.rename gname iname
                 locals := dec.locals.set iname { ghidra_name := gname, current_name := iname, offset := off } })
      | (wd1, false) =>
        (wd1, { dec with
                 locals := dec.locals.set gname { ghidra_name := gname, current_name := gname, offset := off } })
  | none =>
    match wd.hashstr func.start_ea gname with
    | some iname =>
      if iname.length ≤ 0 then
        (wd, { dec with
                locals := dec.locals.set gname { ghidra_name := gname, current_name := gname, offset := BADADDR } })
      else
        (wd, { dec with
                ast := dec.ast.rename gname iname
                locals := dec.locals.set iname { ghidra_name := gname, current_name := iname, offset := BADADDR } })
    | none =>
      (wd, { dec with
              locals := dec.locals.set gname { ghidra_name := gname, current_name := gname, offset := BADADDR } })

/-- The first loop of `map_ghidra_to_ida`, over `ast->prototype.parameters` from index
`k` on; each declaration is read from the tree as it is when its turn comes. -/
def map_parameters : Nat → Nat → World × Decompiled → World × Decompiled
  | 0, _, s => s
  | n + 1, k, (wd, dec) =>
    match dec.ast.parameters.get? k with
    | some gname => map_parameters n (k + 1) (map_var_from_decl wd dec gname)
    | none => (wd, dec)

/-- The second loop of `map_ghidra_to_ida`, over `ast->block.block` from index `k` on;
it stops at the first statement that is not a declaration. -/
def map_block : Nat → Nat → World × Decompiled → World × Decompiled
  | 0, _, s => s
  | n + 1, k, (wd, dec) =>
    match dec.ast.block.get? k with
    | some (.decl gname) => map_block n (k + 1) (map_var_from_decl wd dec gname)
    | _ => (wd, dec)

/-- The function `map_ghidra_to_ida(dec)`. -/
def map_ghidra_to_ida (wd : World) (dec : Decompiled) : World × Decompiled :=
  let s1 := map_parameters dec.ast.parameters.length 0 (wd, dec)
  map_block s1.2.ast.block.length 0 s1

/-! ## Decompile-and-display (plugin.cc 715-767) -/

/-- The function `decompile_at(addr, w)`; `w = none` is the null default. The result
is `none` when the call does not return normally. -/
def decompile_at (L : AstLib) (inp : Inputs) (s : State) (addr : Nat) (w : Option TWidget) :
    Option State :=
  match s.world.get_func addr with
  | none => some s
  | some func =>
    let s1 := { s with effects := s.effects ++ [Effect.do_decompile func.start_ea func.end_ea] }
    match inp.decompiled with
    | none => some s1
    | some ast =>
      let r := map_ghidra_to_ida s1.world { ast := ast, ida_func := func, locals := CMap.empty }
      let dec := r.2
      let code := L.print dec.ast
      match get_available_title s1.titles with
      | none => none
      | some title =>
        match w with
        | none =>
          let cv := inp.new_widget
          some { s1 with
            world := r.1
            effects := s1.effects ++ [Effect.create_custom_viewer cv title]
            function_map := s1.function_map.set cv dec
            histories := s1.histories.set cv ((s1.histories cv).getD [] ++ [addr])
            views := s1.views.set cv title
            titles := insert title s1.titles
            text := s1.text.set cv code }
        | some w =>
          some { s1 with
            world := r.1
            text := s1.text.set w code
            function_map := s1.function_map.set w dec }

/-- The entry point `blc_run`: `decompile_at(get_screen_ea())` with no view. -/
def blc_run (L : AstLib) (inp : Inputs) (s : State) (screen_ea : Nat) : Option State :=
  decompile_at L inp s screen_ea none

/-! ## Event handlers (plugin.cc 134-329, 376-398) -/

/-- The line `get_custom_viewer_curline` returns for view `w` at line number `y`,
after `tag_remove`; the displayed lines carry no colour tags. -/
def curline (s : State) (w : TWidget) (y : Nat) : String :=
  ((s.text w).getD []).getD y ""

/-- The function `get_current_word(v, mouse, word)` on a view of the state: `none` is
the `false` return. The line is indexed by character, which is the byte index the code
uses (`buf.begin() + x`) on lines of ASCII text; on a line with multi-byte characters
the two indexings differ. -/
def current_word (s : State) (w : TWidget) (inp : Inputs) : Option String :=
  match inp.place with
  | none => none
  | some (x, y) => (get_current_word (curline s w y).data x).map String.mk

/-- The function `navigate_to_word(w, cursor)`. -/
def navigate_to_word (L : AstLib) (inp : Inputs) (s : State) (w : TWidget) :
    Option (State × Bool) :=
  match current_word s w inp with
  | none => some (s, false)
  | some word =>
    let ea := s.world.get_name_ea BADADDR word
    if ea ≠ BADADDR then
      if is_function_start s.world ea && !is_extern_addr s.world ea then
        match s.histories w with
        | some v =>
          if v.length = 0 ∨ v.getLast? ≠ some ea then
            (decompile_at L inp { s with histories := s.histories.set w (v ++ [ea]) } ea (some w)).map
              fun s1 => (s1, true)
          else some (s, true)
        | none =>
          (decompile_at L inp { s with histories := s.histories.set w [ea] } ea (some w)).map
            fun s1 => (s1, true)
      else some ({ s with effects := s.effects ++ [Effect.jumpto ea] }, true)
    else some (s, false)

/-- The function `do_ida_rename(name, func)`: the new database, the return code
(`-1` unresolved, `0` duplicate, `1` no change, `2` changed, `3` could not change) and
the content of `name` on return. -/
def do_ida_rename (wd : World) (inp : Inputs) (name : String) (func : Nat) :
    World × Int × String :=
  let name_ea := wd.get_name_ea func name
  if name_ea = BADADDR then (wd, -1, name)
  else
    match inp.ask_str with
    | some answer =>
      if answer ≠ name then
        if wd.get_name_ea func answer ≠ BADADDR then (wd, 0, answer)
        else
          let r := wd.set_name name_ea answer
          (r.1, if r.2 then 2 else 3, answer)
      else (wd, 1, answer)
    | none => (wd, 1, name)

/-- The refresh at the end of case `'N'`: print the tree and hand the lines to the
viewer. -/
def refresh_view (L : AstLib) (s : State) (w : TWidget) (dec : Decompiled) : State :=
  { s with text := s.text.set w (L.print dec.ast) }

/-- Case `'N'` of `ct_keyboard`: rename the thing under the cursor. `none` stands for
the null dereference when the view has no session. -/
def rename_key (L : AstLib) (inp : Inputs) (s : State) (w : TWidget) : Option (State × Bool) :=
  match current_word s w inp with
  | none => some (s, true)
  | some sword =>
    if !L.is_reserved sword then
      match s.function_map w with
      | none => none
      | some dec =>
        match dec.locals sword with
        | some lv =>
          match inp.ask_str with
          | some newname =>
            if sword ≠ newname then
              if L.is_reserved newname ∨ (dec.locals newname).isSome ∨
                  s.world.get_name_ea BADADDR newname ≠ BADADDR then
                some (s, true)
              else if lv.offset ≠ BADADDR then
                match s.world.set_member_name dec.ida_func lv.offset newname with
                | (wd1, true) =>
                  let dec1 : Decompiled :=
                    { dec with
                      locals := (dec.locals.erase sword).set newname { lv with current_name := newname }
                      ast := dec.ast.rename sword newname }
                  some (refresh_view L
                    { s with world := wd1, function_map := s.function_map.set w dec1 } w dec1, true)
                | (wd1, false) => some ({ s with world := wd1 }, true)
              else
                let dec1 : Decompiled :=
                  { dec with
                    locals := (dec.locals.erase sword).set newname { lv with current_name := newname }
                    ast := dec.ast.rename sword newname }
                let wd1 := s.world.hashset dec.ida_func.start_ea lv.ghidra_name newname
                some (refresh_view L
                  { s with world := wd1, function_map := s.function_map.set w dec1 } w dec1, true)
            else some (s, true)
          | none => some (s, true)
        | none =>
          let r := do_ida_rename s.world inp sword dec.ida_func.start_ea
          if r.2.1 = 2 then
            let dec1 : Decompiled := { dec with ast := dec.ast.rename sword r.2.2 }
            some (refresh_view L
              { s with world := r.1, function_map := s.function_map.set w dec1 } w dec1, true)
          else some ({ s with world := r.1 }, true)
    else some (s, true)

/-- Key code `IK_ESCAPE` of the host's `kernwin.hpp`. -/
def IK_ESCAPE : Nat := 0x1B

/-- Key code `IK_RETURN` of the host's `kernwin.hpp`. -/
def IK_RETURN : Nat := 0x0D

/-- Key code `IK_DIVIDE` of the host's `kernwin.hpp`. -/
def IK_DIVIDE : Nat := 0x6F

/-- Case `IK_ESCAPE` of `ct_keyboard`. `none` stands for `pop_back` on an empty vector. -/
def escape_key (L : AstLib) (inp : Inputs) (s : State) (w : TWidget) : Option (State × Bool) :=
  match s.histories w with
  | some v =>
    if v.length = 1 then
      let t := (s.views w).getD []
      some ({ s with
              effects := s.effects ++ [Effect.close_widget w]
              views := s.views.erase w
              function_map := s.function_map.erase w
              titles := s.titles.erase t }, true)
    else
      match v.dropLast.getLast? with
      | none => none
      | some back =>
        (decompile_at L inp { s with histories := s.histories.set w v.dropLast } back (some w)).map
          fun s1 => (s1, true)
  | none => some (s, false)

/-- The keyboard callback `ct_keyboard(w, key, shift, ud)`: the new state and the
Boolean the handler returns; `none` when the call does not return normally. -/
def ct_keyboard (L : AstLib) (inp : Inputs) (s : State) (w : TWidget) (key : Nat) (shift : Int) :
    Option (State × Bool) :=
  if shift = 0 then
    if key = 71 then
      match inp.ask_addr with
      | some addr =>
        match s.world.get_func addr with
        | some f => (decompile_at L inp s f.start_ea (some w)).map fun s1 => (s1, true)
        | none => some (s, true)
      | none => some (s, true)
    else if key = 78 then rename_key L inp s w
    else if key = 89 then
      match inp.place with
      | none => some (s, false)
      | some _ => some (s, true)
    else if key = IK_DIVIDE then
      match inp.place with
      | none => some (s, false)
      | some _ => some (s, true)
    else if key = IK_ESCAPE then escape_key L inp s w
    else if key = IK_RETURN then navigate_to_word L inp s w
    else some (s, false)
  else some (s, false)

/-- The pointer callback `ct_dblclick(cv, shift, ud)`. -/
def ct_dblclick (L : AstLib) (inp : Inputs) (s : State) (cv : TWidget) : Option (State × Bool) :=
  navigate_to_word L inp s cv

/-- A view is live when the Session Store (`function_map`) holds a session for it. -/
def live (s : State) (w : TWidget) : Prop := (s.function_map w).isSome = true

instance (s : State) (w : TWidget) : Decidable (live s w) := by
  unfold live; infer_instance

/-- One UI event: a session creation through `blc_run`, for which the host hands out a
widget that is not live, or a keyboard or pointer callback on a live view. -/
inductive Step (L : AstLib) : State → State → Prop where
  | run (s s1 : State) (inp : Inputs) (ea : Nat) :
      ¬ live s inp.new_widget →
      blc_run L inp s ea = some s1 → Step L s s1
  | key (s s1 : State) (inp : Inputs) (w : TWidget) (key : Nat) (shift : Int) (b : Bool) :
      live s w → ct_keyboard L inp s w key shift = some (s1, b) → Step L s s1
  | dblclick (s s1 : State) (inp : Inputs) (w : TWidget) (b : Bool) :
      live s w → ct_dblclick L inp s w = some (s1, b) → Step L s s1

/-- The states reachable from the freshly loaded plugin by UI events. -/
inductive Reachable (L : AstLib) : State → Prop where
  | init (wd : World) : Reachable L (State.init wd)
  | step (s s1 : State) : Reachable L s → Step L s s1 → Reachable L s1

/-- A run of rename events (key `'N'`, no modifier) on view `w`, one per element of the
input list. -/
def rename_events (L : AstLib) (w : TWidget) : List Inputs → State → Option State
  | [], s => some s
  | inp :: rest, s =>
    match ct_keyboard L inp s w 78 0 with
    | some r => rename_events L w rest r.1
    | none => none

/-- Every entry of a name table is stored under its current display name. -/
def keyed_by_display_name (locals : CMap String LocalVar) : Prop :=
  ∀ k v, locals k = some v → v.current_name = k

/-- No two entries of a name table have the same current display name. -/
def display_names_distinct (locals : CMap String LocalVar) : Prop :=
  ∀ k1 k2 v1 v2, locals k1 = some v1 → locals k2 = some v2 → k1 ≠ k2 →
    v1.current_name ≠ v2.current_name

/-- The Title Registry invariant: the views with a title are the live ones, distinct
views carry distinct titles, and the allocated titles are exactly the titles of views. -/
def title_registry_ok (s : State) : Prop :=
  (∀ w, live s w ↔ ∃ t, s.views w = some t) ∧
  (∀ w1 w2 t, s.views w1 = some t → s.views w2 = some t → w1 = w2) ∧
  (∀ t, t ∈ s.titles ↔ ∃ w, s.views w = some t)

/-- How one event can change the registry: not at all, by creating the session of a
widget that was not live under the title `get_available_title` returned, or by tearing
down the session of a live view and releasing its title. -/
def registry_change (s s1 : State) : Prop :=
  (s1.views = s.views ∧ s1.titles = s.titles ∧ ∀ w, live s1 w ↔ live s w) ∨
  (∃ cv title, ¬ live s cv ∧ get_available_title s.titles = some title ∧
    s1.views = s.views.set cv title ∧ s1.titles = insert title s.titles ∧
    ∀ w, live s1 w ↔ (w = cv ∨ live s w)) ∨
  (∃ w, live s w ∧ s1.views = s.views.erase w ∧
    s1.titles = s.titles.erase ((s.views w).getD []) ∧
    ∀ v, live s1 v ↔ (v ≠ w ∧ live s v))

/-! ## A concrete session, for instantiating the theorems -/

/-- A sample library: two reserved words, and a rendering with one identifier per line. -/
def ex_lib : AstLib :=
  { is_reserved := fun n => n == "int" || n == "return"
    print := fun f => f.idents }

/-- A sample function record. -/
def ex_func : func_t := { start_ea := 0x1000, end_ea := 0x1100, frregs := 0 }

/-- A sample database: one function `main` at `0x1000` with return-address offset
`0x20`, an empty frame, no stored associations; every update is accepted. -/
def ex_world : World :=
  { get_func := fun a => if 0x1000 ≤ a ∧ a < 0x1100 then some ex_func else none
    get_name_ea := fun _ n => if n = "main" then 0x1000 else BADADDR
    frame_off_retaddr := fun _ => 0x20
    get_member := fun _ _ => none
    hashstr := fun _ _ => none
    is_extern_seg := fun _ => false
    add_struc_member_ok := fun _ _ _ => true
    set_member_name_ok := fun _ _ _ => true
    set_name_ok := fun _ _ => true }

/-- The sample database with a host that refuses every frame-member rename. -/
def ex_world_ro : World := { ex_world with set_member_name_ok := fun _ _ _ => false }

/-- A sample tree: one parameter, two leading declarations, one statement. -/
def ex_tree : Function :=
  { parameters := ["param_1"]
    block := [.decl "iStack16", .decl "uVar1", .other ["uVar1", "iStack16", "param_1"]] }

/-- The sample tree as population leaves it (`iStack16` shown as `var_10`). -/
def ex_tree1 : Function :=
  { parameters := ["param_1"]
    block := [.decl "var_10", .decl "uVar1", .other ["uVar1", "var_10", "param_1"]] }

/-- The session population builds for the sample tree in the sample database. -/
def ex_dec : Decompiled :=
  { ast := ex_tree1
    ida_func := ex_func
    locals := ((CMap.empty.set "param_1"
        { ghidra_name := "param_1", current_name := "param_1", offset := BADADDR }).set "var_10"
        { ghidra_name := "iStack16", current_name := "var_10", offset := 0x10 }).set "uVar1"
        { ghidra_name := "uVar1", current_name := "uVar1", offset := BADADDR } }

/-- A second sample session, on another function. -/
def ex_dec2 : Decompiled :=
  { ast := { parameters := ["param_1"], block := [] }
    ida_func := { start_ea := 0x2000, end_ea := 0x2040, frregs := 0 }
    locals := CMap.empty.set "param_1"
        { ghidra_name := "param_1", current_name := "param_1", offset := BADADDR } }

/-- A sample state over database `wd`: view 1 shows `ex_dec` under title "A" and view 2
shows `ex_dec2` under title "B". -/
def ex_state_on (wd : World) : State :=
  { world := wd
    histories := (CMap.empty.set 1 [0x1000]).set 2 [0x2000]
    views := (CMap.empty.set 1 [65]).set 2 [66]
    function_map := (CMap.empty.set 1 ex_dec).set 2 ex_dec2
    titles := {[65], [66]}
    text := (CMap.empty.set 1 (ex_lib.print ex_dec.ast)).set 2 (ex_lib.print ex_dec2.ast)
    effects := [] }

/-- The sample state over the sample database. -/
def ex_state : State := ex_state_on ex_world

/-- Sample inputs: the cursor at column `x` of line `y` and the prompt answer `answer`. -/
def ex_inputs (x : Int) (y : Nat) (answer : Option String) : Inputs :=
  { place := some (x, y), ask_str := answer, ask_addr := none, decompiled := none,
    new_widget := 3 }

/-- Sample inputs for opening a view: the decompiler delivers the sample tree and the
host hands out widget 3. -/
def ex_open_inputs : Inputs :=
  { place := none, ask_str := none, ask_addr := none, decompiled := some ex_tree,
    new_widget := 3 }

/-- The state after the plugin is run once on `main` in the sample database. -/
def ex_opened : State :=
  (blc_run ex_lib ex_open_inputs (State.init ex_world) 0x1000).getD (State.init ex_world)

/-! ## Navigation runs and further samples -/

/-- The 26 single-letter titles "A".."Z". -/
def ex_letters : Finset Title := (Finset.range 26).image fun i => [65 + i]

/-- The address a drill-in navigates to: the word under the cursor resolves to the
start of a function outside the `extern` segment, which is the test `navigate_to_word`
makes before it looks at the history; `none` when the event is no drill-in. -/
def drill_in_target (s : State) (w : TWidget) (inp : Inputs) : Option Nat :=
  match current_word s w inp with
  | none => none
  | some word =>
    let ea := s.world.get_name_ea BADADDR word
    if ea ≠ BADADDR ∧ (is_function_start s.world ea && !is_extern_addr s.world ea) = true then
      some ea
    else none

/-- A run of navigation events (`navigate_to_word`, reached by Enter or double-click) on
view `w`, one per element of the input list. -/
def navigate_events (L : AstLib) (w : TWidget) : List Inputs → State → Option State
  | [], s => some s
  | inp :: rest, s =>
    match navigate_to_word L inp s w with
    | some r => navigate_events L w rest r.1
    | none => none

/-- A second sample function record. -/
def ex_func2 : func_t := { start_ea := 0x2000, end_ea := 0x2040, frregs := 0 }

/-- The sample database with a second function `helper` at `0x2000`. -/
def ex_world_nav : World :=
  { ex_world with
    get_func := fun a =>
      if 0x1000 ≤ a ∧ a < 0x1100 then some ex_func
      else if 0x2000 ≤ a ∧ a < 0x2040 then some ex_func2 else none
    get_name_ea := fun _ n =>
      if n = "main" then 0x1000 else if n = "helper" then 0x2000 else BADADDR }

/-- A sample state for navigation: view 1 shows the session `ex_dec` of `main` under
title "A", its two displayed lines are `helper` and `main`, and its history is `h`. -/
def ex_nav_state (h : List Nat) : State :=
  { world := ex_world_nav
    histories := CMap.empty.set 1 h
    views := CMap.empty.set 1 [65]
    function_map := CMap.empty.set 1 ex_dec
    titles := {[65]}
    text := CMap.empty.set 1 ["helper", "main"]
    effects := [] }

/-- Sample inputs for a navigation: the cursor at column 0 of line `y`, and the tree the
decompiler delivers (`none` for a failed decompilation). -/
def ex_nav_inputs (y : Nat) (tree : Option Function) : Inputs :=
  { place := some (0, y), ask_str := none, ask_addr := none, decompiled := tree,
    new_widget := 3 }

/-- A sample tree that declares the parameter `Stack_none` and uses it once. -/
def ex_tree_sn : Function :=
  { parameters := ["Stack_none"], block := [.other ["Stack_none"]] }

/-- A fresh session on the sample function over `ex_tree_sn`, before population. -/
def ex_dec_sn : Decompiled :=
  { ast := ex_tree_sn, ida_func := ex_func, locals := CMap.empty }

/-! ## Samples for whole populations -/

/-- The first `k` single-letter titles: "A" for `k = 1`, "A".."Z" for `k = 26`. -/
def first_letters (k : Nat) : Finset Title := (Finset.range k).image fun i => [65 + i]

theorem getD_append_cons (pre cs : List Nat) (v d : Nat) :
    (pre ++ v :: cs).getD pre.length d = v := by
  induction pre with
  | nil => simp
  | cons p ps ih => simpa using ih

theorem set_append_cons (pre cs : List Nat) (c v : Nat) :
    (pre ++ c :: cs).set pre.length v = pre ++ v :: cs := by
  induction pre with
  | nil => simp
  | cons p ps ih => simp

theorem inner_loop_eq (term : Nat) : ∀ (rest pre : List Nat) (n : Nat), rest.length < n →
    inner_loop n ⟨pre ++ rest, term⟩ pre.length =
      ⟨pre ++ (odo_succ rest term).chars, (odo_succ rest term).term⟩ := by
  intro rest
  induction rest with
  | nil =>
    intro pre n hn
    obtain ⟨m, rfl⟩ : ∃ m, n = m + 1 := ⟨n - 1, by simp at hn; omega⟩
    simp only [inner_loop, TitleBuf.get, TitleBuf.set, List.append_nil, lt_self_iff_false,
      if_false, odo_succ, TitleBuf.push_back]
    by_cases h : 90 < term + 1
    · simp [h]
    · simp [h]
  | cons c cs ih =>
    intro pre n hn
    obtain ⟨m, rfl⟩ : ∃ m, n = m + 1 := ⟨n - 1, by simp at hn; omega⟩
    have hlt2 : ∀ v, pre.length < (pre ++ v :: cs).length := by intro v; simp
    have hne : ¬ (pre ++ 65 :: cs).length = pre.length := by simp
    simp only [inner_loop, TitleBuf.get, TitleBuf.set, hlt2, if_true, getD_append_cons,
      set_append_cons, odo_succ]
    by_cases h : 90 < c + 1
    · simp only [h, if_true, hne, if_false]
      have := ih (pre ++ [65]) m (by simp at hn; omega)
      simpa using this
    · simp only [h, if_false]

theorem next_title_eq (t : TitleBuf) : next_title t = odo_succ t.chars t.term := by
  have := inner_loop_eq t.term t.chars [] (t.chars.length + 1) (by omega)
  simpa [next_title] using this

theorem title_val_lt (a : Title) (ha : is_upper_title a) : title_val a < 26 ^ a.length := by
  induction a with
  | nil => simp [title_val]
  | cons c cs ih =>
    have hc := ha c (by simp)
    have := ih (fun d hd => ha d (by simp [hd]))
    simp only [title_val, List.length_cons, pow_succ]
    omega

theorem title_val_inj : ∀ (a b : Title), is_upper_title a → is_upper_title b →
    a.length = b.length → title_val a = title_val b → a = b := by
  intro a
  induction a with
  | nil =>
    intro b _ _ hl _
    cases b with
    | nil => rfl
    | cons d ds => simp at hl
  | cons c cs ih =>
    intro b ha hb hl hv
    cases b with
    | nil => simp at hl
    | cons d ds =>
      have hc := ha c (by simp)
      have hd := hb d (by simp)
      simp only [title_val] at hv
      have h1 : c = d := by omega
      have h2 : title_val cs = title_val ds := by omega
      have := ih ds (fun x hx => ha x (by simp [hx])) (fun x hx => hb x (by simp [hx]))
        (by simpa using hl) h2
      rw [h1, this]

/-- The three ways one odometer round ends: a plain increment, a wrap of all
characters with the terminator slot counting up, or the wrap that appends a character. -/
theorem odo_succ_cases (term : Nat) (hterm : term ≤ 90) : ∀ (cs : List Nat), is_upper_title cs →
    is_upper_title (odo_succ cs term).chars ∧ (odo_succ cs term).term ≤ 90 ∧
    (((odo_succ cs term).chars.length = cs.length ∧ (odo_succ cs term).term = term ∧
        title_val (odo_succ cs term).chars = title_val cs + 1) ∨
     (title_val cs + 1 = 26 ^ cs.length ∧ title_val (odo_succ cs term).chars = 0 ∧
        (((odo_succ cs term).chars.length = cs.length ∧ (odo_succ cs term).term = term + 1 ∧
            term < 90) ∨
         ((odo_succ cs term).chars.length = cs.length + 1 ∧ (odo_succ cs term).term = 0 ∧
            term = 90)))) := by
  intro cs
  induction cs with
  | nil =>
    intro _
    by_cases h : 90 < term + 1
    · have : term = 90 := by omega
      simp [odo_succ, h, is_upper_title, title_val, this]
    · have : term < 90 := by omega
      simp [odo_succ, h, is_upper_title, title_val]
      omega
  | cons c cs ih =>
    intro hcs
    have hc := hcs c (by simp)
    have hrest : is_upper_title cs := fun d hd => hcs d (by simp [hd])
    obtain ⟨i1, i2, i3⟩ := ih hrest
    by_cases h : 90 < c + 1
    · have hc90 : c = 90 := by omega
      simp only [odo_succ, h, if_true]
      refine ⟨?_, i2, ?_⟩
      · intro d hd
        simp only [List.mem_cons] at hd
        rcases hd with rfl | hd
        · omega
        · exact i1 d hd
      · simp only [title_val, List.length_cons, pow_succ]
        rcases i3 with ⟨a1, a2, a3⟩ | ⟨b1, b2, b3⟩
        · left
          refine ⟨by omega, a2, by omega⟩
        · right
          refine ⟨by omega, by omega, ?_⟩
          rcases b3 with ⟨x1, x2, x3⟩ | ⟨x1, x2, x3⟩
          · left; exact ⟨by omega, x2, x3⟩
          · right; exact ⟨by omega, x2, x3⟩
    · simp only [odo_succ, h, if_false]
      refine ⟨?_, hterm, ?_⟩
      · intro d hd
        simp only [List.mem_cons] at hd
        rcases hd with rfl | hd
        · omega
        · exact hrest d hd
      · left
        refine ⟨by simp, ?_⟩
        simp only [title_val, true_and]
        omega

theorem odo_succ_ne_nil (term : Nat) (cs : List Nat) (h : cs ≠ []) :
    (odo_succ cs term).chars ≠ [] := by
  cases cs with
  | nil => exact absurd rfl h
  | cons c cs =>
    simp only [odo_succ]
    split <;> simp

theorem next_title_ok (t : TitleBuf) (h : t.ok) : (next_title t).ok := by
  rw [next_title_eq]
  obtain ⟨a, b, _⟩ := odo_succ_cases t.term h.2 t.chars h.1
  exact ⟨a, b⟩

theorem odo_pos_mono {m n : Nat} (h : m ≤ n) : odo_pos m ≤ odo_pos n := by
  induction h with
  | refl => exact le_refl _
  | step _ ih => simp only [odo_pos]; omega

theorem odo_pos_le (n : Nat) : odo_pos n + 91 ≤ 91 * 26 ^ n := by
  induction n with
  | zero => simp [odo_pos]
  | succ n ih => simp only [odo_pos, pow_succ]; omega

theorem odo_rank_lt (t : TitleBuf) (h : t.ok) : odo_rank t < odo_pos (t.chars.length + 1) := by
  have hv := title_val_lt t.chars h.1
  have ht : t.term * 26 ^ t.chars.length ≤ 90 * 26 ^ t.chars.length :=
    Nat.mul_le_mul_right _ h.2
  simp only [odo_rank, odo_pos]
  omega

theorem odo_rank_next (t : TitleBuf) (h : t.ok) : odo_rank (next_title t) = odo_rank t + 1 := by
  rw [next_title_eq]
  obtain ⟨_, _, h3⟩ := odo_succ_cases t.term h.2 t.chars h.1
  simp only [odo_rank]
  rcases h3 with ⟨a1, a2, a3⟩ | ⟨b1, b2, b3⟩
  · rw [a1, a2, a3]; omega
  · rcases b3 with ⟨x1, x2, x3⟩ | ⟨x1, x2, x3⟩
    · rw [x1, x2, b2, Nat.add_mul]; omega
    · rw [x1, x2, b2, x3]; simp only [odo_pos]; omega

/-- A title reached by one more round is either the previous title or comes before it:
the odometer skips nothing. -/
theorem odo_lt_next (t : TitleBuf) (h : t.ok) (a : Title) (ha : is_upper_title a)
    (hlt : odo_lt a (next_title t).chars) : a = t.chars ∨ odo_lt a t.chars := by
  rw [next_title_eq] at hlt
  obtain ⟨_, _, h3⟩ := odo_succ_cases t.term h.2 t.chars h.1
  have hva := title_val_lt a ha
  unfold odo_lt at hlt ⊢
  rcases h3 with ⟨a1, a2, a3⟩ | ⟨b1, b2, b3⟩
  · rw [a1, a3] at hlt
    rcases hlt with hl | ⟨hl, hv⟩
    · right; left; exact hl
    · by_cases he : title_val a = title_val t.chars
      · left; exact title_val_inj a t.chars ha h.1 hl he
      · right; right; exact ⟨hl, by omega⟩
  · rw [b2] at hlt
    rcases b3 with ⟨x1, x2, x3⟩ | ⟨x1, x2, x3⟩
    · rw [x1] at hlt
      rcases hlt with hl | ⟨_, hv⟩
      · right; left; exact hl
      · omega
    · rw [x1] at hlt
      rcases hlt with hl | ⟨_, hv⟩
      · by_cases hl2 : a.length = t.chars.length
        · rw [hl2] at hva
          by_cases he : title_val a = title_val t.chars
          · left; exact title_val_inj a t.chars ha h.1 hl2 he
          · right; right; exact ⟨hl2, by omega⟩
        · right; left; omega
      · omega

/-- Partial correctness of the outer loop: started in a buffer all of whose odometer
predecessors are allocated, it can only stop at a title that is not allocated and all
of whose odometer predecessors are allocated. -/
theorem title_loop_spec (titles : Finset Title) : ∀ (fuel : Nat) (t r : TitleBuf), t.ok →
    t.chars ≠ [] →
    (∀ a, is_upper_title a → a ≠ [] → odo_lt a t.chars → a ∈ titles) →
    title_loop titles fuel t = some r →
    r.ok ∧ r.chars ≠ [] ∧ r.chars ∉ titles ∧
      (∀ a, is_upper_title a → a ≠ [] → odo_lt a r.chars → a ∈ titles) := by
  intro fuel
  induction fuel with
  | zero => intro t r _ _ _ h; simp [title_loop] at h
  | succ k ih =>
    intro t r hok hne hall h
    simp only [title_loop] at h
    by_cases hm : t.chars ∈ titles
    · simp only [hm, if_true] at h
      refine ih (next_title t) r (next_title_ok t hok) ?_ ?_ h
      · rw [next_title_eq]; exact odo_succ_ne_nil _ _ hne
      · intro a ha hane hlt
        rcases odo_lt_next t hok a ha hlt with rfl | hlt2
        · exact hm
        · exact hall a ha hane hlt2
    · simp only [hm, if_false, Option.some.injEq] at h
      subst h
      exact ⟨hok, hne, hm, hall⟩

/-- Termination of the outer loop: with every allocated title at most `L` long, the
loop stops once the fuel exceeds the number of odometer states it can still pass. -/
theorem title_loop_isSome (titles : Finset Title) (L : Nat) (hL : ∀ a ∈ titles, a.length ≤ L) :
    ∀ (fuel : Nat) (t : TitleBuf), t.ok → 1 ≤ fuel →
    (t.chars.length ≤ L → odo_pos (L + 1) < odo_rank t + fuel) →
    (title_loop titles fuel t).isSome = true := by
  intro fuel
  induction fuel with
  | zero => intro t _ h _; omega
  | succ k ih =>
    intro t hok _ hb
    simp only [title_loop]
    by_cases hm : t.chars ∈ titles
    · simp only [hm, if_true]
      have hlen := hL _ hm
      have h1 := hb hlen
      have h2 := odo_rank_lt t hok
      have h3 : odo_pos (t.chars.length + 1) ≤ odo_pos (L + 1) := odo_pos_mono (by omega)
      refine ih (next_title t) (next_title_ok t hok) (by omega) ?_
      intro _
      rw [odo_rank_next t hok]
      omega
    · simp [hm]

theorem start_ok : TitleBuf.ok { chars := [65], term := 0 } := by
  constructor
  · intro c hc; simp at hc; omega
  · simp

/-- Totality of `get_available_title`: for every finite set of allocated titles the
loop finishes within `title_fuel` rounds. -/
theorem get_available_title_isSome (titles : Finset Title) :
    (get_available_title titles).isSome = true := by
  unfold get_available_title
  rw [Option.isSome_map']
  refine title_loop_isSome titles (titles.sup List.length)
    (fun a ha => Finset.le_sup (f := List.length) ha) _ _ start_ok ?_ ?_
  · unfold title_fuel
    have : 0 < 26 ^ (titles.sup List.length + 1) := by positivity
    omega
  · intro _
    have := odo_pos_le (titles.sup List.length + 1)
    simp only [title_fuel, odo_rank, List.length_singleton, title_val]
    omega

/-- What `get_available_title` returns: a non-empty title over `A`-`Z` that is not
allocated, all of whose odometer predecessors are allocated. -/
theorem get_available_title_spec (titles : Finset Title) (r : Title)
    (h : get_available_title titles = some r) :
    is_upper_title r ∧ r ≠ [] ∧ r ∉ titles ∧
      (∀ a, is_upper_title a → a ≠ [] → odo_lt a r → a ∈ titles) := by
  unfold get_available_title at h
  rw [Option.map_eq_some'] at h
  obtain ⟨b, hb, rfl⟩ := h
  have := title_loop_spec titles _ _ b start_ok (by simp) ?_ hb
  · exact ⟨this.1.1, this.2.1, this.2.2.1, this.2.2.2⟩
  · intro a _ hane hlt
    unfold odo_lt at hlt
    simp only [List.length_singleton, title_val] at hlt
    rcases hlt with hl | ⟨_, hv⟩
    · have : a.length = 0 := by omega
      exact absurd (List.length_eq_zero.mp this) hane
    · omega

theorem odo_lt_trichotomy (a b : Title) (ha : is_upper_title a) (hb : is_upper_title b)
    (hne : a ≠ b) : odo_lt a b ∨ odo_lt b a := by
  unfold odo_lt
  by_cases hl : a.length = b.length
  · by_cases hv : title_val a = title_val b
    · exact absurd (title_val_inj a b ha hb hl hv) hne
    · omega
  · omega

/-- The characterisation of `get_available_title_spec` determines the result. -/
theorem get_available_title_eq (titles : Finset Title) (r : Title) (hr : is_upper_title r)
    (hfree : r ∉ titles)
    (hmin : ∀ a, is_upper_title a → a ≠ [] → odo_lt a r → a ∈ titles) (hne : r ≠ []) :
    get_available_title titles = some r := by
  have hs := get_available_title_isSome titles
  obtain ⟨q, hq⟩ := Option.isSome_iff_exists.mp hs
  obtain ⟨q1, q2, q3, q4⟩ := get_available_title_spec titles q hq
  by_cases he : q = r
  · rw [hq, he]
  · rcases odo_lt_trichotomy q r q1 hr he with h | h
    · exact absurd (hmin q q1 q2 h) q3
    · exact absurd (q4 r hr hne h) hfree

/-- With "A".."Z" and "AA" allocated the allocator returns "BA". -/
theorem get_available_title_letters_and_AA :
    get_available_title ex_letters_and_AA = some [66, 65] := by
  refine get_available_title_eq _ _ (by decide) (by decide) ?_ (by decide)
  intro a ha hane hlt
  unfold odo_lt at hlt
  simp only [List.length_cons, List.length_nil, title_val] at hlt
  rcases hlt with hl | ⟨hl, hv⟩
  · have h1 : a.length = 1 := by
      have : a.length ≠ 0 := fun h => hane (List.length_eq_zero.mp h)
      omega
    obtain ⟨c, rfl⟩ := List.length_eq_one.mp h1
    have hc := ha c (by simp)
    simp only [ex_letters_and_AA, Finset.mem_insert, Finset.mem_image, Finset.mem_range]
    right
    exact ⟨c - 65, by omega, by congr 1; omega⟩
  · obtain ⟨x, y, rfl⟩ := List.length_eq_two.mp hl
    have hx := ha x (by simp)
    have hy := ha y (by simp)
    simp only [title_val] at hv
    have h1 : x = 65 := by omega
    have h2 : y = 65 := by omega
    subst h1 h2
    simp [ex_letters_and_AA]

/-- C8, as stated, fails. In dictionary order: with only "A" allocated the allocator
returns "B", although "AA" is a non-empty string over A-Z, is not allocated, and is
lexicographically smaller than "B". Reading "lexicographically" length-first does not
help: with "A".."Z" and "AA" allocated it returns "BA", although "AB" is free and
precedes "BA". So the returned title is not always the smallest free one in either
order. -/
theorem get_available_title_not_lex_smallest :
    (¬ ∀ (titles : Finset Title) (r : Title), get_available_title titles = some r →
        ∀ a : Title, is_upper_title a → a ≠ [] → a ∉ titles → lex_lt a r = false) ∧
    (¬ ∀ (titles : Finset Title) (r : Title), get_available_title titles = some r →
        ∀ a : Title, is_upper_title a → a ≠ [] → a ∉ titles → shortlex_lt a r = false) := by
  constructor
  · intro h
    have h1 := h {[65]} [66] (by decide) [65, 65] (by decide) (by decide) (by decide)
    revert h1
    decide
  · intro h
    have h1 := h ex_letters_and_AA [66, 65] get_available_title_letters_and_AA [65, 66]
      (by decide) (by decide) (by decide)
    revert h1
    decide

/-- C8, amended: for every finite set of allocated titles `get_available_title`
returns, and what it returns is a non-empty string over A-Z that is not allocated and
is the first such string in the odometer's own order (shorter strings first, strings of
one length ordered with the first character counting fastest): every other free
string over A-Z comes later in that order. -/
theorem get_available_title_first_free (titles : Finset Title) :
    ∃ r : Title, get_available_title titles = some r ∧ is_upper_title r ∧ r ≠ [] ∧
      r ∉ titles ∧
      ∀ a : Title, is_upper_title a → a ≠ [] → a ∉ titles → a ≠ r → odo_lt r a := by
  obtain ⟨r, hr⟩ := Option.isSome_iff_exists.mp (get_available_title_isSome titles)
  obtain ⟨r1, r2, r3, r4⟩ := get_available_title_spec titles r hr
  refine ⟨r, hr, r1, r2, r3, ?_⟩
  intro a ha hane hfree hne
  rcases odo_lt_trichotomy a r ha r1 hne with h | h
  · exact absurd (r4 a ha hane h) hfree
  · exact h

/-- C9: whenever some single-letter title is free, `get_available_title` returns the
alphabetically smallest free single letter `c`, whatever longer titles are allocated;
in particular, after `titles.erase("A")` (release of "A") with "B" still allocated it
returns "A". -/
theorem get_available_title_smallest_letter (titles : Finset Title) (c : Nat)
    (hc : 65 ≤ c ∧ c ≤ 90) (hfree : [c] ∉ titles)
    (hmin : ∀ d, 65 ≤ d → d < c → [d] ∈ titles) :
    get_available_title titles = some [c] ∧
      ∀ allocated : Finset Title, [66] ∈ allocated →
        get_available_title (allocated.erase [65]) = some [65] := by
  have key : ∀ (ts : Finset Title) (e : Nat), 65 ≤ e ∧ e ≤ 90 → [e] ∉ ts →
      (∀ d, 65 ≤ d → d < e → [d] ∈ ts) → get_available_title ts = some [e] := by
    intro ts e he hf hm
    refine get_available_title_eq ts [e] ?_ hf ?_ (by simp)
    · intro x hx
      simp only [List.mem_singleton] at hx
      subst hx
      exact he
    · intro a ha hane hlt
      unfold odo_lt at hlt
      simp only [List.length_singleton, title_val] at hlt
      rcases hlt with hl | ⟨hl, hv⟩
      · have : a.length = 0 := by omega
        exact absurd (List.length_eq_zero.mp this) hane
      · obtain ⟨d, rfl⟩ := List.length_eq_one.mp hl
        have hd := ha d (by simp)
        simp only [title_val] at hv
        exact hm d hd.1 (by omega)
  refine ⟨key titles c hc hfree hmin, ?_⟩
  intro allocated _
  exact key (allocated.erase [65]) 65 (by omega) (by simp) (by intro d h1 h2; omega)

/-- Witness for C9: with "A", "C" and "BA" allocated the next title is "B"; and with
"A", "B" and "CA" allocated, releasing "A" makes "A" the next title. -/
theorem get_available_title_smallest_letter_witness :
    ([66] ∉ ({[65], [67], [66, 65]} : Finset Title) ∧
        [65] ∈ ({[65], [67], [66, 65]} : Finset Title)) ∧
      get_available_title {[65], [67], [66, 65]} = some [66] ∧
      get_available_title (({[65], [66], [67, 65]} : Finset Title).erase [65]) = some [65] :=
  ⟨by decide,
    (get_available_title_smallest_letter {[65], [67], [66, 65]} 66 (by decide) (by decide)
      (by intro d h1 h2
          have : d = 65 := by omega
          subst this
          decide)).1,
    (get_available_title_smallest_letter {[65], [67], [66, 65]} 66 (by decide) (by decide)
      (by intro d h1 h2
          have : d = 65 := by omega
          subst this
          decide)).2 {[65], [66], [67, 65]} (by decide)⟩

/-! ## Theorems: the rename handler -/

@[simp] theorem CMap.set_same {α β : Type} [DecidableEq α] (m : CMap α β) (k : α) (v : β) :
    (m.set k v) k = some v := by simp [CMap.set]

@[simp] theorem CMap.set_other {α β : Type} [DecidableEq α] (m : CMap α β) (k j : α) (v : β)
    (h : j ≠ k) : (m.set k v) j = m j := by simp [CMap.set, h]

@[simp] theorem CMap.erase_same {α β : Type} [DecidableEq α] (m : CMap α β) (k : α) :
    (m.erase k) k = none := by simp [CMap.erase]

@[simp] theorem CMap.erase_other {α β : Type} [DecidableEq α] (m : CMap α β) (k j : α)
    (h : j ≠ k) : (m.erase k) j = m j := by simp [CMap.erase, h]

theorem ct_keyboard_N (L : AstLib) (inp : Inputs) (s : State) (w : TWidget) :
    ct_keyboard L inp s w 78 0 = rename_key L inp s w := by
  simp [ct_keyboard]

/-- C1: a successful rename of a tracked local. The view `w` has a session, the token
under the cursor is `old`, a key of the session's table whose entry is `lv`; the
prompt (which the handler reaches only for a token that is not reserved) returns
`new`, different from `old`; `new` passes validation (not reserved, not a key of the
table, not resolvable in the global namespace); and, when the entry is stack-resident,
the frame-member rename succeeds. Then the handler returns with a session whose table
has no entry under `old`, has under `new` the entry with display name `new` and the
native name and offset of `lv`, agrees with the old table on every other key, whose
tree is the old tree with `rename(old, new)` applied, and the view displays the
rendering of that tree. -/
theorem rename_tracked_local_success (L : AstLib) (inp : Inputs) (s : State) (w : TWidget)
    (dec : Decompiled) (lv : LocalVar) (old new : String)
    (hsess : s.function_map w = some dec)
    (hword : current_word s w inp = some old)
    (hres : L.is_reserved old = false)
    (hold : dec.locals old = some lv)
    (hask : inp.ask_str = some new)
    (hne : old ≠ new)
    (hv1 : L.is_reserved new = false)
    (hv2 : dec.locals new = none)
    (hv3 : s.world.get_name_ea BADADDR new = BADADDR)
    (hstack : lv.offset ≠ BADADDR →
      s.world.set_member_name_ok dec.ida_func lv.offset new = true) :
    ∃ (s1 : State) (dec1 : Decompiled),
      ct_keyboard L inp s w 78 0 = some (s1, true) ∧
      s1.function_map w = some dec1 ∧
      dec1.locals old = none ∧
      dec1.locals new =
        some { ghidra_name := lv.ghidra_name, current_name := new, offset := lv.offset } ∧
      (∀ k, k ≠ old → k ≠ new → dec1.locals k = dec.locals k) ∧
      dec1.ast = dec.ast.rename old new ∧
      s1.text w = some (L.print dec1.ast) := by
  rw [ct_keyboard_N]
  let dec1 : Decompiled :=
    { dec with
      locals := (dec.locals.erase old).set new { lv with current_name := new }
      ast := dec.ast.rename old new }
  have hloc1 : dec1.locals old = none := by simp [dec1, CMap.set, CMap.erase, hne]
  have hloc2 : dec1.locals new =
      some { ghidra_name := lv.ghidra_name, current_name := new, offset := lv.offset } := by
    simp [dec1]
  have hloc3 : ∀ k, k ≠ old → k ≠ new → dec1.locals k = dec.locals k := by
    intro k h1 h2; simp [dec1, CMap.set, CMap.erase, h1, h2]
  by_cases hoff : lv.offset ≠ BADADDR
  · have hok := hstack hoff
    refine ⟨refresh_view L
      { s with world := (s.world.set_member_name dec.ida_func lv.offset new).1,
               function_map := s.function_map.set w dec1 } w dec1, dec1, ?_, ?_, hloc1, hloc2,
      hloc3, rfl, ?_⟩
    · simp only [rename_key, hword, hres, hsess, hold, hask, hv1, hv2, hv3,
        World.set_member_name, hok]
      simp [hne, hoff, dec1]
    · simp [refresh_view]
    · simp [refresh_view]
  · refine ⟨refresh_view L
      { s with world := s.world.hashset dec.ida_func.start_ea lv.ghidra_name new,
               function_map := s.function_map.set w dec1 } w dec1, dec1, ?_, ?_, hloc1, hloc2,
      hloc3, rfl, ?_⟩
    · simp only [rename_key, hword, hres, hsess, hold, hask, hv1, hv2, hv3]
      simp [hne, hoff, dec1]
    · simp [refresh_view]
    · simp [refresh_view]

/-- Witness for C1: in the sample session the register-class local `uVar1` (line 2 of
view 1) is renamed to `counter`. -/
theorem rename_tracked_local_success_witness :
    ∃ (s1 : State) (dec1 : Decompiled),
      ct_keyboard ex_lib (ex_inputs 2 2 (some "counter")) ex_state 1 78 0 = some (s1, true) ∧
      s1.function_map 1 = some dec1 ∧
      dec1.locals "uVar1" = none ∧
      dec1.locals "counter" =
        some { ghidra_name := "uVar1", current_name := "counter", offset := BADADDR } ∧
      (∀ k, k ≠ "uVar1" → k ≠ "counter" → dec1.locals k = ex_dec.locals k) ∧
      dec1.ast = ex_dec.ast.rename "uVar1" "counter" ∧
      s1.text 1 = some (ex_lib.print dec1.ast) :=
  rename_tracked_local_success ex_lib (ex_inputs 2 2 (some "counter")) ex_state 1 ex_dec
    { ghidra_name := "uVar1", current_name := "uVar1", offset := BADADDR } "uVar1" "counter"
    rfl (by decide) (by decide) rfl rfl (by decide) (by decide) rfl (by decide)
    (fun h => absurd rfl h)

/-- The sample session is what population builds from the sample tree. -/
theorem ex_dec_is_populated :
    (map_ghidra_to_ida ex_world { ast := ex_tree, ida_func := ex_func, locals := CMap.empty }).2.ast
        = ex_dec.ast ∧
      ∀ k ∈ ["param_1", "var_10", "uVar1", "iStack16"],
        (map_ghidra_to_ida ex_world
          { ast := ex_tree, ida_func := ex_func, locals := CMap.empty }).2.locals k
          = ex_dec.locals k := by
  decide

/-- C2: validation rejection is a no-op. The view has a session, the token under the
cursor is a tracked local, and the prompted new name is reserved, or is already a key
of the session's table, or already resolves in the global namespace. Then the handler
returns `true` and the whole plugin state is the state before the call: the table
(keys and entries), the tree, the displayed text, and the database with its frame
storage and per-function association store. -/
theorem rename_validation_rejected (L : AstLib) (inp : Inputs) (s : State) (w : TWidget)
    (dec : Decompiled) (lv : LocalVar) (old new : String)
    (hsess : s.function_map w = some dec)
    (hword : current_word s w inp = some old)
    (hold : dec.locals old = some lv)
    (hask : inp.ask_str = some new)
    (hrej : L.is_reserved new = true ∨ (∃ other, dec.locals new = some other) ∨
      s.world.get_name_ea BADADDR new ≠ BADADDR) :
    ct_keyboard L inp s w 78 0 = some (s, true) := by
  rw [ct_keyboard_N]
  simp only [rename_key, hword, hsess, hold, hask]
  by_cases hres : L.is_reserved old = true
  · simp [hres]
  · by_cases hne : old = new
    · simp [hres, hne]
    · have hcond : L.is_reserved new = true ∨ (dec.locals new).isSome = true ∨
          s.world.get_name_ea BADADDR new ≠ BADADDR := by
        rcases hrej with h | ⟨o, h⟩ | h
        · exact Or.inl h
        · exact Or.inr (Or.inl (by simp [h]))
        · exact Or.inr (Or.inr h)
      simp [hres, hne, hcond]

/-- Witness for C2: renaming `uVar1` to `var_10`, the key of another entry of the
sample session, changes nothing. -/
theorem rename_validation_rejected_witness :
    ex_dec.locals "var_10" =
        some { ghidra_name := "iStack16", current_name := "var_10", offset := 0x10 } ∧
      ct_keyboard ex_lib (ex_inputs 2 2 (some "var_10")) ex_state 1 78 0 = some (ex_state, true) :=
  ⟨rfl, rename_validation_rejected ex_lib (ex_inputs 2 2 (some "var_10")) ex_state 1 ex_dec
    { ghidra_name := "uVar1", current_name := "uVar1", offset := BADADDR } "uVar1" "var_10"
    rfl (by decide) rfl rfl (Or.inr (Or.inl ⟨_, rfl⟩))⟩

/-- C3: persistence-failure atomicity. The view has a session, the token under the
cursor is a tracked stack-resident local (stored offset other than `BADADDR`), and the
host reports failure for the frame-member rename at that offset to the prompted name.
Then the handler returns `true` in a state in which the session of the view is the
session before the call (so the entry's display name, the keys of the table and the
tree are unchanged) and the displayed text is unchanged; indeed the whole plugin state
is the state before the call. -/
theorem rename_stack_failure_atomic (L : AstLib) (inp : Inputs) (s : State) (w : TWidget)
    (dec : Decompiled) (lv : LocalVar) (old new : String)
    (hsess : s.function_map w = some dec)
    (hword : current_word s w inp = some old)
    (hold : dec.locals old = some lv)
    (hstack : lv.offset ≠ BADADDR)
    (hask : inp.ask_str = some new)
    (hfail : s.world.set_member_name_ok dec.ida_func lv.offset new = false) :
    ∃ s1, ct_keyboard L inp s w 78 0 = some (s1, true) ∧
      s1.function_map w = some dec ∧ dec.locals old = some lv ∧ s1.text w = s.text w ∧
      s1 = s := by
  refine ⟨s, ?_, hsess, hold, rfl, rfl⟩
  rw [ct_keyboard_N]
  simp only [rename_key, hword, hsess, hold, hask, World.set_member_name, hfail]
  by_cases hres : L.is_reserved old = true
  · simp [hres]
  · by_cases hne : old = new
    · simp [hres, hne]
    · by_cases hcond : L.is_reserved new = true ∨ (dec.locals new).isSome = true ∨
          s.world.get_name_ea BADADDR new ≠ BADADDR
      · simp [hres, hne, hcond]
      · simp [hres, hne, hcond, hstack]

/-- Witness for C3: with a host that refuses frame-member renames, renaming the stack
local `var_10` (line 1 of view 1) to `buf` changes nothing. -/
theorem rename_stack_failure_atomic_witness :
    ex_world_ro.set_member_name_ok ex_dec.ida_func 0x10 "buf" = false ∧
      ∃ s1, ct_keyboard ex_lib (ex_inputs 0 1 (some "buf")) (ex_state_on ex_world_ro) 1 78 0 =
          some (s1, true) ∧
        s1.function_map 1 = some ex_dec ∧
        ex_dec.locals "var_10" =
          some { ghidra_name := "iStack16", current_name := "var_10", offset := 0x10 } ∧
        s1.text 1 = (ex_state_on ex_world_ro).text 1 ∧
        s1 = ex_state_on ex_world_ro :=
  ⟨rfl, rename_stack_failure_atomic ex_lib (ex_inputs 0 1 (some "buf")) (ex_state_on ex_world_ro)
    1 ex_dec { ghidra_name := "iStack16", current_name := "var_10", offset := 0x10 }
    "var_10" "buf" rfl (by decide) rfl (by decide) rfl rfl⟩

/-- Frame of the rename handler: other views keep their session, history, title and
text, and the tables of titles stay as they are. -/
theorem rename_key_frame (L : AstLib) (inp : Inputs) (s s1 : State) (w : TWidget) (b : Bool)
    (h : rename_key L inp s w = some (s1, b)) :
    s1.histories = s.histories ∧ s1.views = s.views ∧ s1.titles = s.titles ∧
      (∀ w2, w2 ≠ w → s1.function_map w2 = s.function_map w2) ∧
      (∀ w2, w2 ≠ w → s1.text w2 = s.text w2) ∧
      ((s1.function_map w).isSome = (s.function_map w).isSome) := by
  unfold rename_key at h
  dsimp only at h
  repeat' split at h
  all_goals first
    | (simp at h; done)
    | (simp only [Option.some.injEq, Prod.mk.injEq] at h
       obtain ⟨rfl, _⟩ := h
       refine ⟨rfl, rfl, rfl, ?_, ?_, ?_⟩
       · intro w2 hw; simp [refresh_view, hw]
       · intro w2 hw; simp [refresh_view, hw]
       · simp [refresh_view, *])

/-- The rename handler returns whenever the view has a session. -/
theorem rename_key_returns (L : AstLib) (inp : Inputs) (s : State) (w : TWidget)
    (dec : Decompiled) (hsess : s.function_map w = some dec) :
    ∃ s1, rename_key L inp s w = some (s1, true) := by
  unfold rename_key
  simp only [hsess]
  repeat' split
  all_goals exact ⟨_, rfl⟩

/-- C6: session non-interference of rename. With sessions on two distinct views `w1`
and `w2`, the rename handler on `w1` returns for every cursor place, prompt result and
database (so for every outcome of the external calls), and leaves the session of `w2`
(its table and tree), its history, its title and its displayed text unchanged. -/
theorem rename_non_interference (L : AstLib) (inp : Inputs) (s : State) (w1 w2 : TWidget)
    (d1 d2 : Decompiled) (hne : w1 ≠ w2)
    (h1 : s.function_map w1 = some d1) (h2 : s.function_map w2 = some d2) :
    ∃ s1, ct_keyboard L inp s w1 78 0 = some (s1, true) ∧
      s1.function_map w2 = some d2 ∧
      s1.histories w2 = s.histories w2 ∧
      s1.views w2 = s.views w2 ∧
      s1.text w2 = s.text w2 := by
  rw [ct_keyboard_N]
  obtain ⟨s1, hs1⟩ := rename_key_returns L inp s w1 d1 h1
  obtain ⟨f1, f2, _, f4, f5, _⟩ := rename_key_frame L inp s s1 w1 true hs1
  exact ⟨s1, hs1, by rw [f4 w2 (Ne.symm hne), h2], by rw [f1], by rw [f2], f5 w2 (Ne.symm hne)⟩

/-- Witness for C6: renaming `uVar1` to `counter` in view 1 of the sample state leaves
view 2 as it was. -/
theorem rename_non_interference_witness :
    ∃ s1, ct_keyboard ex_lib (ex_inputs 2 2 (some "counter")) ex_state 1 78 0 = some (s1, true) ∧
      s1.function_map 2 = some ex_dec2 ∧
      s1.histories 2 = ex_state.histories 2 ∧
      s1.views 2 = ex_state.views 2 ∧
      s1.text 2 = ex_state.text 2 :=
  rename_non_interference ex_lib (ex_inputs 2 2 (some "counter")) ex_state 1 2 ex_dec ex_dec2
    (by decide) rfl rfl

/-! ## Theorems: population and display names -/

theorem keyed_distinct (locals : CMap String LocalVar) (h : keyed_by_display_name locals) :
    display_names_distinct locals := by
  intro k1 k2 v1 v2 h1 h2 hne
  rw [h k1 v1 h1, h k2 v2 h2]
  exact hne

theorem keyed_set (locals : CMap String LocalVar) (h : keyed_by_display_name locals)
    (k : String) (v : LocalVar) (hv : v.current_name = k) :
    keyed_by_display_name (locals.set k v) := by
  intro j u hj
  by_cases hjk : j = k
  · subst hjk
    simp at hj
    subst hj
    exact hv
  · rw [CMap.set_other _ _ _ _ hjk] at hj
    exact h j u hj

theorem keyed_erase (locals : CMap String LocalVar) (h : keyed_by_display_name locals)
    (k : String) : keyed_by_display_name (locals.erase k) := by
  intro j u hj
  by_cases hjk : j = k
  · subst hjk; simp at hj
  · rw [CMap.erase_other _ _ _ hjk] at hj
    exact h j u hj

theorem map_var_from_decl_keyed (wd : World) (dec : Decompiled) (gname : String)
    (h : keyed_by_display_name dec.locals) :
    keyed_by_display_name (map_var_from_decl wd dec gname).2.locals := by
  unfold map_var_from_decl
  dsimp only
  repeat' split
  all_goals exact keyed_set _ h _ _ rfl

theorem map_parameters_keyed : ∀ (n k : Nat) (wd : World) (dec : Decompiled),
    keyed_by_display_name dec.locals →
    keyed_by_display_name (map_parameters n k (wd, dec)).2.locals := by
  intro n
  induction n with
  | zero => intro k wd dec h; exact h
  | succ m ih =>
    intro k wd dec h
    simp only [map_parameters]
    split
    · exact ih _ _ _ (map_var_from_decl_keyed wd dec _ h)
    · exact h

theorem map_block_keyed : ∀ (n k : Nat) (wd : World) (dec : Decompiled),
    keyed_by_display_name dec.locals →
    keyed_by_display_name (map_block n k (wd, dec)).2.locals := by
  intro n
  induction n with
  | zero => intro k wd dec h; exact h
  | succ m ih =>
    intro k wd dec h
    simp only [map_block]
    split
    · exact ih _ _ _ (map_var_from_decl_keyed wd dec _ h)
    · exact h

/-- Population leaves every entry stored under its display name. -/
theorem map_ghidra_to_ida_keyed (wd : World) (dec : Decompiled)
    (h : keyed_by_display_name dec.locals) :
    keyed_by_display_name (map_ghidra_to_ida wd dec).2.locals := by
  unfold map_ghidra_to_ida
  exact map_block_keyed _ _ _ _ (map_parameters_keyed _ _ _ _ h)

theorem keyed_empty : keyed_by_display_name (CMap.empty : CMap String LocalVar) := by
  intro k v h; simp [CMap.empty] at h

/-- The rename handler keeps every entry stored under its display name. -/
theorem rename_key_keyed (L : AstLib) (inp : Inputs) (s : State) (w : TWidget)
    (dec : Decompiled) (hsess : s.function_map w = some dec)
    (hk : keyed_by_display_name dec.locals) :
    ∃ s1 dec1, rename_key L inp s w = some (s1, true) ∧ s1.function_map w = some dec1 ∧
      keyed_by_display_name dec1.locals := by
  have hk2 : ∀ (lv : LocalVar) (o n : String),
      keyed_by_display_name ((dec.locals.erase o).set n { lv with current_name := n }) :=
    fun lv o n => keyed_set _ (keyed_erase _ hk o) _ _ rfl
  unfold rename_key
  simp only [hsess]
  repeat' split
  all_goals first
    | exact ⟨_, dec, rfl, hsess, hk⟩
    | exact ⟨_, _, rfl, CMap.set_same _ _ _, hk2 _ _ _⟩
    | exact ⟨_, _, rfl, CMap.set_same _ _ _, hk⟩

theorem rename_events_keyed (L : AstLib) (w : TWidget) : ∀ (inps : List Inputs) (s : State)
    (dec : Decompiled), s.function_map w = some dec → keyed_by_display_name dec.locals →
    ∃ s1 dec1, rename_events L w inps s = some s1 ∧ s1.function_map w = some dec1 ∧
      keyed_by_display_name dec1.locals := by
  intro inps
  induction inps with
  | nil => intro s dec h hk; exact ⟨s, dec, rfl, h, hk⟩
  | cons inp rest ih =>
    intro s dec h hk
    obtain ⟨s1, dec1, e1, e2, e3⟩ := rename_key_keyed L inp s w dec h hk
    obtain ⟨s2, dec2, f1, f2, f3⟩ := ih s1 dec1 e2 e3
    refine ⟨s2, dec2, ?_, f2, f3⟩
    simp only [rename_events, ct_keyboard_N, e1]
    exact f1

/-- C4: display-name uniqueness. If the table of the session of view `w` is the one
population (`map_ghidra_to_ida` from an empty table) built over some tree, then after
any run of rename events on `w` (none included), with any cursor places and prompt
answers, the handler has returned each time and no two entries of the table have the
same current display name; indeed every entry is stored under its display name. -/
theorem display_names_unique (L : AstLib) (wd : World) (ast : Function) (func : func_t)
    (s : State) (w : TWidget) (dec : Decompiled) (inps : List Inputs)
    (hsess : s.function_map w = some dec)
    (hpop : dec.locals =
      (map_ghidra_to_ida wd { ast := ast, ida_func := func, locals := CMap.empty }).2.locals) :
    ∃ s1 dec1, rename_events L w inps s = some s1 ∧ s1.function_map w = some dec1 ∧
      display_names_distinct dec1.locals ∧ keyed_by_display_name dec1.locals := by
  have hk : keyed_by_display_name dec.locals := by
    rw [hpop]; exact map_ghidra_to_ida_keyed _ _ keyed_empty
  obtain ⟨s1, dec1, e1, e2, e3⟩ := rename_events_keyed L w inps s dec hsess hk
  exact ⟨s1, dec1, e1, e2, keyed_distinct _ e3, e3⟩

/-- Witness for C4: the sample session, populated from the sample tree, after renaming
`uVar1` to `counter` and then trying to rename `counter` to `var_10`. -/
theorem display_names_unique_witness :
    ∃ s1 dec1, rename_events ex_lib 1
        [ex_inputs 2 2 (some "counter"), ex_inputs 2 2 (some "var_10")] ex_state = some s1 ∧
      s1.function_map 1 = some dec1 ∧
      display_names_distinct dec1.locals ∧ keyed_by_display_name dec1.locals :=
  display_names_unique ex_lib ex_world ex_tree ex_func ex_state 1 ex_dec
    [ex_inputs 2 2 (some "counter"), ex_inputs 2 2 (some "var_10")] rfl rfl

theorem decompile_at_view (L : AstLib) (inp : Inputs) (s s1 : State) (addr : Nat) (w : TWidget)
    (h : decompile_at L inp s addr (some w) = some s1) :
    s1.views = s.views ∧ s1.titles = s.titles ∧ s1.histories = s.histories ∧
      (∀ v, v ≠ w → s1.function_map v = s.function_map v) ∧
      (live s w → live s1 w) := by
  unfold decompile_at at h
  dsimp only at h
  repeat' split at h
  all_goals first
    | (simp at h; done)
    | (simp only [Option.some.injEq] at h
       subst h
       refine ⟨rfl, rfl, rfl, ?_, ?_⟩
       · intro v hv; simp [hv]
       · intro hl; first | exact hl | simp [live])

theorem decompile_at_new (L : AstLib) (inp : Inputs) (s s1 : State) (addr : Nat)
    (hfresh : ¬ live s inp.new_widget)
    (h : decompile_at L inp s addr none = some s1) : registry_change s s1 := by
  unfold decompile_at at h
  dsimp only at h
  repeat' split at h
  all_goals first
    | (simp at h; done)
    | (simp only [Option.some.injEq] at h
       subst h
       left
       exact ⟨rfl, rfl, fun _ => Iff.rfl⟩)
    | (simp only [Option.some.injEq] at h
       subst h
       right; left
       refine ⟨inp.new_widget, _, hfresh, ?_, rfl, rfl, ?_⟩
       · assumption
       intro v
       by_cases hv : v = inp.new_widget
       · simp [live, hv]
       · simp [live, hv])

theorem same_of_view (s s1 : State) (w : TWidget) (hl : live s w)
    (h : s1.views = s.views ∧ s1.titles = s.titles ∧
      (∀ v, v ≠ w → s1.function_map v = s.function_map v) ∧ (live s w → live s1 w)) :
    registry_change s s1 := by
  left
  refine ⟨h.1, h.2.1, ?_⟩
  intro v
  by_cases hv : v = w
  · subst hv; exact ⟨fun _ => hl, fun _ => h.2.2.2 hl⟩
  · simp only [live, h.2.2.1 v hv]

theorem navigate_to_word_change (L : AstLib) (inp : Inputs) (s s1 : State) (w : TWidget)
    (b : Bool) (hl : live s w) (h : navigate_to_word L inp s w = some (s1, b)) :
    registry_change s s1 := by
  unfold navigate_to_word at h
  dsimp only at h
  repeat' split at h
  all_goals first
    | (simp only [Option.some.injEq, Prod.mk.injEq] at h
       obtain ⟨rfl, _⟩ := h
       left
       exact ⟨rfl, rfl, fun _ => Iff.rfl⟩)
    | (simp only [Option.map_eq_some', Prod.mk.injEq] at h
       obtain ⟨s2, h2, rfl, _⟩ := h
       obtain ⟨a1, a2, _, a4, a5⟩ := decompile_at_view L inp _ _ _ _ h2
       exact same_of_view s s2 w hl ⟨a1, a2, a4, a5⟩)

theorem escape_key_change (L : AstLib) (inp : Inputs) (s s1 : State) (w : TWidget)
    (b : Bool) (hl : live s w) (h : escape_key L inp s w = some (s1, b)) :
    registry_change s s1 := by
  unfold escape_key at h
  dsimp only at h
  repeat' split at h
  all_goals first
    | (simp at h; done)
    | (simp only [Option.some.injEq, Prod.mk.injEq] at h
       obtain ⟨rfl, _⟩ := h
       left
       exact ⟨rfl, rfl, fun _ => Iff.rfl⟩)
    | (simp only [Option.map_eq_some', Prod.mk.injEq] at h
       obtain ⟨s2, h2, rfl, _⟩ := h
       obtain ⟨a1, a2, _, a4, a5⟩ := decompile_at_view L inp _ _ _ _ h2
       exact same_of_view s s2 w hl ⟨a1, a2, a4, a5⟩)
    | (simp only [Option.some.injEq, Prod.mk.injEq] at h
       obtain ⟨rfl, _⟩ := h
       right; right
       refine ⟨w, hl, rfl, rfl, ?_⟩
       intro v
       by_cases hv : v = w
       · simp [live, hv]
       · simp [live, hv])

theorem ct_keyboard_change (L : AstLib) (inp : Inputs) (s s1 : State) (w : TWidget)
    (key : Nat) (shift : Int) (b : Bool) (hl : live s w)
    (h : ct_keyboard L inp s w key shift = some (s1, b)) : registry_change s s1 := by
  have same : ∀ b1, some (s, b1) = some (s1, b) → registry_change s s1 := by
    intro b1 e
    simp only [Option.some.injEq, Prod.mk.injEq] at e
    obtain ⟨rfl, _⟩ := e
    left
    exact ⟨rfl, rfl, fun _ => Iff.rfl⟩
  unfold ct_keyboard at h
  by_cases hs : shift = 0
  · simp only [hs, if_true] at h
    by_cases k1 : key = 71
    · simp only [k1, if_true] at h
      repeat' split at h
      all_goals first
        | exact same _ h
        | (simp only [Option.map_eq_some', Prod.mk.injEq] at h
           obtain ⟨s2, h2, rfl, _⟩ := h
           obtain ⟨a1, a2, _, a4, a5⟩ := decompile_at_view L inp _ _ _ _ h2
           exact same_of_view s s2 w hl ⟨a1, a2, a4, a5⟩)
    · simp only [k1, if_false] at h
      by_cases k2 : key = 78
      · simp only [k2, if_true] at h
        obtain ⟨_, f2, f3, f4, _, f6⟩ := rename_key_frame L inp s s1 w b h
        refine same_of_view s s1 w hl ⟨f2, f3, f4, ?_⟩
        intro _
        simp only [live, f6]
        exact hl
      · simp only [k2, if_false] at h
        by_cases k3 : key = 89
        · simp only [k3, if_true] at h
          split at h <;> exact same _ h
        · simp only [k3, if_false] at h
          by_cases k4 : key = IK_DIVIDE
          · simp only [k4, if_true] at h
            split at h <;> exact same _ h
          · simp only [k4, if_false] at h
            by_cases k5 : key = IK_ESCAPE
            · simp only [k5, if_true] at h
              exact escape_key_change L inp s s1 w b hl h
            · simp only [k5, if_false] at h
              by_cases k6 : key = IK_RETURN
              · simp only [k6, if_true] at h
                exact navigate_to_word_change L inp s s1 w b hl h
              · simp only [k6, if_false] at h
                exact same _ h
  · simp only [hs, if_false] at h
    exact same _ h

/-- Every event changes the registry in one of the three ways of `registry_change`. -/
theorem step_change (L : AstLib) (s s1 : State) (h : Step L s s1) : registry_change s s1 := by
  cases h with
  | run inp ea hfresh hrun => exact decompile_at_new L inp s s1 ea hfresh hrun
  | key inp w key shift b hl hk => exact ct_keyboard_change L inp s s1 w key shift b hl hk
  | dblclick inp w b hl hd => exact navigate_to_word_change L inp s s1 w b hl hd

theorem registry_ok_init (wd : World) : title_registry_ok (State.init wd) := by
  refine ⟨?_, ?_, ?_⟩
  · intro w; simp [live, State.init, CMap.empty]
  · intro w1 w2 t h; simp [State.init, CMap.empty] at h
  · intro t; simp [State.init, CMap.empty]

theorem registry_ok_change (s s1 : State) (hok : title_registry_ok s)
    (hc : registry_change s s1) : title_registry_ok s1 := by
  obtain ⟨o1, o2, o3⟩ := hok
  rcases hc with ⟨e1, e2, e3⟩ | ⟨cv, title, hfresh, htitle, e1, e2, e3⟩ | ⟨w, hl, e1, e2, e3⟩
  · refine ⟨?_, ?_, ?_⟩
    · intro w; rw [e3, e1]; exact o1 w
    · rw [e1]; exact o2
    · rw [e1, e2]; exact o3
  · have hnot : title ∉ s.titles := (get_available_title_spec _ _ htitle).2.2.1
    have hnone : ∀ v, s.views v ≠ some title := fun v hv => hnot ((o3 title).mpr ⟨v, hv⟩)
    refine ⟨?_, ?_, ?_⟩
    · intro v
      rw [e3, e1]
      by_cases hv : v = cv
      · subst hv; simp
      · simp only [hv, false_or, CMap.set_other _ _ _ _ hv]; exact o1 v
    · intro w1 w2 t h1 h2
      rw [e1] at h1 h2
      by_cases c1 : w1 = cv
      · by_cases c2 : w2 = cv
        · rw [c1, c2]
        · rw [c1, CMap.set_same] at h1
          rw [CMap.set_other _ _ _ _ c2] at h2
          simp only [Option.some.injEq] at h1
          rw [← h1] at h2
          exact absurd h2 (hnone w2)
      · rw [CMap.set_other _ _ _ _ c1] at h1
        by_cases c2 : w2 = cv
        · rw [c2, CMap.set_same] at h2
          simp only [Option.some.injEq] at h2
          rw [← h2] at h1
          exact absurd h1 (hnone w1)
        · rw [CMap.set_other _ _ _ _ c2] at h2
          exact o2 w1 w2 t h1 h2
    · intro t
      rw [e1, e2, Finset.mem_insert]
      constructor
      · rintro (rfl | ht)
        · exact ⟨cv, by simp⟩
        · obtain ⟨v, hv⟩ := (o3 t).mp ht
          have hvc : v ≠ cv := by
            intro e
            subst e
            exact hfresh ((o1 v).mpr ⟨t, hv⟩)
          exact ⟨v, by rw [CMap.set_other _ _ _ _ hvc]; exact hv⟩
      · rintro ⟨v, hv⟩
        by_cases c : v = cv
        · rw [c, CMap.set_same] at hv
          simp only [Option.some.injEq] at hv
          exact Or.inl hv.symm
        · rw [CMap.set_other _ _ _ _ c] at hv
          exact Or.inr ((o3 t).mpr ⟨v, hv⟩)
  · obtain ⟨t0, ht0⟩ := (o1 w).mp hl
    have hget : (s.views w).getD [] = t0 := by rw [ht0]; rfl
    rw [hget] at e2
    refine ⟨?_, ?_, ?_⟩
    · intro v
      rw [e3, e1]
      by_cases hv : v = w
      · subst hv; simp
      · simp only [ne_eq, hv, not_false_eq_true, true_and, CMap.erase_other _ _ _ hv]
        exact o1 v
    · intro w1 w2 t h1 h2
      rw [e1] at h1 h2
      by_cases c1 : w1 = w
      · rw [c1, CMap.erase_same] at h1; simp at h1
      · by_cases c2 : w2 = w
        · rw [c2, CMap.erase_same] at h2; simp at h2
        · rw [CMap.erase_other _ _ _ c1] at h1
          rw [CMap.erase_other _ _ _ c2] at h2
          exact o2 w1 w2 t h1 h2
    · intro t
      rw [e1, e2, Finset.mem_erase]
      constructor
      · rintro ⟨hne, ht⟩
        obtain ⟨v, hv⟩ := (o3 t).mp ht
        have hvw : v ≠ w := by
          intro e
          subst e
          rw [ht0] at hv
          simp only [Option.some.injEq] at hv
          exact hne hv.symm
        exact ⟨v, by rw [CMap.erase_other _ _ _ hvw]; exact hv⟩
      · rintro ⟨v, hv⟩
        by_cases c : v = w
        · rw [c, CMap.erase_same] at hv; simp at hv
        · rw [CMap.erase_other _ _ _ c] at hv
          refine ⟨?_, (o3 t).mpr ⟨v, hv⟩⟩
          intro e
          subst e
          exact c (o2 v w t hv ht0)

/-- The registry invariant holds in every reachable state. -/
theorem reachable_registry_ok (L : AstLib) (s : State) (h : Reachable L s) :
    title_registry_ok s := by
  induction h with
  | init wd => exact registry_ok_init wd
  | step s s1 _ hstep ih => exact registry_ok_change s s1 ih (step_change L s s1 hstep)

/-- C7: Title Registry bijection. In every state reachable from the freshly loaded
plugin by session creations, keyboard events (address jump, rename, Escape, Enter and
the rest) and double-clicks, every live view has a title, distinct live views have
distinct titles, and the allocated-title set is exactly the set of titles of live
views; and across any further event an allocated title leaves the allocated set
exactly when the session of the live view carrying it is torn down by that event. -/
theorem title_registry_bijection (L : AstLib) (s : State) (hr : Reachable L s) :
    (∀ w, live s w → ∃ t, s.views w = some t) ∧
    (∀ w1 w2 t, live s w1 → live s w2 → s.views w1 = some t → s.views w2 = some t → w1 = w2) ∧
    (∀ t, t ∈ s.titles ↔ ∃ w, live s w ∧ s.views w = some t) ∧
    (∀ s1, Step L s s1 → ∀ t, t ∈ s.titles →
      (t ∉ s1.titles ↔ ∃ w, live s w ∧ s.views w = some t ∧ ¬ live s1 w)) := by
  obtain ⟨o1, o2, o3⟩ := reachable_registry_ok L s hr
  refine ⟨fun w hw => (o1 w).mp hw, fun w1 w2 t _ _ h1 h2 => o2 w1 w2 t h1 h2, ?_, ?_⟩
  · intro t
    rw [o3]
    constructor
    · rintro ⟨w, hw⟩; exact ⟨w, (o1 w).mpr ⟨t, hw⟩, hw⟩
    · rintro ⟨w, _, hw⟩; exact ⟨w, hw⟩
  · intro s1 hstep t ht
    rcases step_change L s s1 hstep with
      ⟨_, e2, e3⟩ | ⟨cv, title, _, _, _, e2, e3⟩ | ⟨w, hl, _, e2, e3⟩
    · constructor
      · intro hn; rw [e2] at hn; exact absurd ht hn
      · rintro ⟨w, hw, _, hn⟩; exact absurd ((e3 w).mpr hw) hn
    · constructor
      · intro hn; rw [e2] at hn; exact absurd (Finset.mem_insert_of_mem ht) hn
      · rintro ⟨w, hw, _, hn⟩; exact absurd ((e3 w).mpr (Or.inr hw)) hn
    · obtain ⟨t0, ht0⟩ := (o1 w).mp hl
      have hget : (s.views w).getD [] = t0 := by rw [ht0]; rfl
      rw [hget] at e2
      constructor
      · intro hn
        rw [e2, Finset.mem_erase] at hn
        have : t = t0 := by
          by_contra hne
          exact hn ⟨hne, ht⟩
        subst this
        exact ⟨w, hl, ht0, fun h => ((e3 w).mp h).1 rfl⟩
      · rintro ⟨v, hv, hvt, hn⟩
        have hvw : v = w := by
          by_contra hne
          exact hn ((e3 v).mpr ⟨hne, hv⟩)
        subst hvw
        rw [ht0] at hvt
        simp only [Option.some.injEq] at hvt
        subst hvt
        rw [e2]
        simp

/-- Witness for C7: the state after the plugin is run once on `main`. -/
theorem title_registry_bijection_witness :
    (∀ w, live ex_opened w → ∃ t, ex_opened.views w = some t) ∧
    (∀ w1 w2 t, live ex_opened w1 → live ex_opened w2 → ex_opened.views w1 = some t →
      ex_opened.views w2 = some t → w1 = w2) ∧
    (∀ t, t ∈ ex_opened.titles ↔ ∃ w, live ex_opened w ∧ ex_opened.views w = some t) ∧
    (∀ s1, Step ex_lib ex_opened s1 → ∀ t, t ∈ ex_opened.titles →
      (t ∉ s1.titles ↔ ∃ w, live ex_opened w ∧ ex_opened.views w = some t ∧ ¬ live s1 w)) :=
  title_registry_bijection ex_lib ex_opened
    (Reachable.step _ _ (Reachable.init ex_world)
      (Step.run _ _ ex_open_inputs 0x1000 (by decide) rfl))

/-- The sample run does open a session: view 3 is live under title "A". -/
theorem ex_opened_live : live ex_opened 3 ∧ ex_opened.views 3 = some [65] ∧
    ex_opened.titles = {[65]} := by
  decide

/-- The call `decompile_at` always returns: its only loop is the title search. -/
theorem decompile_at_isSome (L : AstLib) (inp : Inputs) (s : State) (addr : Nat)
    (w : Option TWidget) : (decompile_at L inp s addr w).isSome = true := by
  unfold decompile_at
  dsimp only
  split
  · rfl
  · split
    · rfl
    · have h := get_available_title_isSome s.titles
      obtain ⟨t, ht⟩ := Option.isSome_iff_exists.mp h
      simp only [ht]
      split <;> rfl

/-- Population of a declaration whose native name carries no stack marker records an
entry with that native name and storage offset "none" under its display name. -/
theorem map_var_from_decl_register_class (wd : World) (dec : Decompiled) (g : String)
    (hreg : string_find g.data "Stack".data = none) :
    ∃ k, (map_var_from_decl wd dec g).2.locals k =
      some { ghidra_name := g, current_name := k, offset := BADADDR } := by
  unfold map_var_from_decl
  simp only [hreg]
  repeat' split
  all_goals exact ⟨_, CMap.set_same _ _ _⟩

/-! ## Theorems: the growth step of the odometer -/

theorem title_loop_iterate (titles : Finset Title) : ∀ (n m : Nat) (t : TitleBuf),
    (∀ j, j < n → (next_title^[j] t).chars ∈ titles) →
    title_loop titles (n + m) t = title_loop titles m (next_title^[n] t) := by
  intro n
  induction n with
  | zero => intro m t _; simp
  | succ k ih =>
    intro m t h
    have h0 : t.chars ∈ titles := by simpa using h 0 (by omega)
    have e : k + 1 + m = (k + m) + 1 := by omega
    rw [e, title_loop, if_pos h0, ih m (next_title t), Function.iterate_succ_apply]
    intro j hj
    have := h (j + 1) (by omega)
    rwa [Function.iterate_succ_apply] at this

/-- While "A".."Z" are scanned with nothing free, the buffer after `j` rounds holds the
single letter number `j % 26` and the terminator slot holds `j / 26`. -/
theorem letters_iterate : ∀ j, j ≤ 2365 →
    next_title^[j] { chars := [65], term := 0 } = { chars := [65 + j % 26], term := j / 26 } := by
  intro j
  induction j with
  | zero => intro _; rfl
  | succ k ih =>
    intro hk
    rw [Function.iterate_succ_apply', ih (by omega), next_title_eq]
    by_cases hc : k % 26 = 25
    · have h1 : ¬ 90 < k / 26 + 1 := by omega
      have h2 : (k + 1) % 26 = 0 := by omega
      have h3 : (k + 1) / 26 = k / 26 + 1 := by omega
      simp [odo_succ, hc, h1, h2, h3]
    · have h1 : ¬ 90 < 65 + k % 26 + 1 := by omega
      have h2 : (k + 1) % 26 = k % 26 + 1 := by omega
      have h3 : (k + 1) / 26 = k / 26 := by omega
      simp only [odo_succ, h1, if_false, h2, h3]
      rfl

theorem mem_ex_letters (c : Nat) : [c] ∈ ex_letters ↔ 65 ≤ c ∧ c ≤ 90 := by
  simp only [ex_letters, Finset.mem_image, Finset.mem_range, List.cons.injEq, and_true]
  constructor
  · rintro ⟨i, hi, rfl⟩; omega
  · intro h; exact ⟨c - 65, by omega, by omega⟩

/-- With "A".."Z" allocated the title after "Z" is "AA". -/
theorem get_available_title_letters : get_available_title ex_letters = some [65, 65] := by
  refine get_available_title_eq _ _ (by decide) (by decide) ?_ (by decide)
  intro a ha hane hlt
  unfold odo_lt at hlt
  simp only [List.length_cons, List.length_nil, title_val] at hlt
  rcases hlt with hl | ⟨_, hv⟩
  · have h1 : a.length = 1 := by
      have : a.length ≠ 0 := fun h => hane (List.length_eq_zero.mp h)
      omega
    obtain ⟨c, rfl⟩ := List.length_eq_one.mp h1
    exact (mem_ex_letters c).mpr (ha c (by simp))
  · omega

/-- The route of the loop when all of "A".."Z" are allocated. A round that starts from
"Z" with the terminator slot below `'Z'` resets the string to "A" and increments the
terminator slot `title[1]`; "A" is allocated, so the scan of "A".."Z" starts over. When
the terminator slot itself has reached `'Z'`, in the 91st such round, `'A'` is
appended: the loop body runs 2366 times (with 2366 tests of the condition the loop has
not finished, the 2367th finds "AA" free). -/
theorem odometer_carry_increments_terminator :
    next_title { chars := [90], term := 0 } = { chars := [65], term := 1 } ∧
    [65] ∈ ex_letters ∧
    (∀ k, k < 90 → next_title { chars := [90], term := k } = { chars := [65], term := k + 1 }) ∧
    next_title { chars := [90], term := 90 } = { chars := [65, 65], term := 0 } ∧
    title_loop ex_letters 2366 { chars := [65], term := 0 } = none ∧
    title_loop ex_letters 2367 { chars := [65], term := 0 } =
      some { chars := [65, 65], term := 0 } := by
  have hall : ∀ j, j < 2366 →
      (next_title^[j] { chars := [65], term := 0 }).chars ∈ ex_letters := by
    intro j hj
    rw [letters_iterate j (by omega)]
    exact (mem_ex_letters _).mpr (by omega)
  have hlast : next_title^[2366] { chars := [65], term := 0 } =
      { chars := [65, 65], term := 0 } := by
    rw [Function.iterate_succ_apply', letters_iterate 2365 (by omega), next_title_eq]
    rfl
  refine ⟨by rw [next_title_eq]; rfl, (mem_ex_letters 65).mpr (by omega), ?_,
    by rw [next_title_eq]; rfl, ?_, ?_⟩
  · intro k hk
    rw [next_title_eq]
    have h1 : ¬ 90 < k + 1 := by omega
    simp [odo_succ, h1]
  · exact title_loop_iterate ex_letters 2366 0 _ hall
  · have := title_loop_iterate ex_letters 2366 1 _ hall
    rw [hlast] at this
    rw [show (2367 : Nat) = 2366 + 1 from rfl, this]
    have hfree : ([65, 65] : Title) ∉ ex_letters := by decide
    simp [title_loop, hfree]

/-! ## Theorems: classification of `Stack_none` -/

/-- C11, as stated, fails: in the sample database (return address at `0x20`, empty
frame, no stored association) population of a declaration named `Stack_none` takes the
stack branch with parsed offset 0. It creates the frame member `var_0` at `0x20`,
records the variable under `var_0` with storage offset `0x20`, which is not "none",
records nothing under `Stack_none`, and renames the tree. -/
theorem stack_none_not_register_class :
    ex_world.hashstr ex_func.start_ea "Stack_none" = none ∧
    (map_var_from_decl ex_world ex_dec_sn "Stack_none").2.locals "Stack_none" = none ∧
    (map_var_from_decl ex_world ex_dec_sn "Stack_none").2.locals "var_0" =
      some { ghidra_name := "Stack_none", current_name := "var_0", offset := 0x20 } ∧
    (0x20 : Nat) ≠ BADADDR ∧
    (map_var_from_decl ex_world ex_dec_sn "Stack_none").2.ast =
      { parameters := ["var_0"], block := [.other ["var_0"]] } ∧
    (map_var_from_decl ex_world ex_dec_sn "Stack_none").2.ast ≠ ex_tree_sn ∧
    ex_world.get_member ex_func 0x20 = none ∧
    (map_var_from_decl ex_world ex_dec_sn "Stack_none").1.get_member ex_func 0x20 =
      some "var_0" := by
  decide

/-- C11, amended: a variable whose native name is `Stack_none` is classified by
population as stack-resident with parsed offset 0 (the marker text alone decides, and
`strtoul` reads 0 where no digits follow). With `off` the return-address anchor minus
0: if a frame member exists at `off`, its name is adopted as key and display name and
the tree is renamed; if none exists and the placeholder `var_%X` can be created, that
name is adopted, the tree is renamed and the frame has the new member; only if none
exists and the creation fails is the variable recorded under key `Stack_none` with
display name `Stack_none`, the tree left unrenamed and the database unchanged. In
every case the entry's storage offset is `off`, and the stored association is not
consulted. -/
theorem stack_none_stack_resident (wd : World) (dec : Decompiled) :
    string_find "Stack_none".data "Stack".data = some 0 ∧
    strtoul0 ("Stack_none".data.drop (0 + 5)) % 2 ^ 32 = 0 ∧
    (∀ iname, wd.get_member dec.ida_func (wd.frame_off_retaddr dec.ida_func % 2 ^ 64) = some iname →
      (map_var_from_decl wd dec "Stack_none").2.locals iname =
          some { ghidra_name := "Stack_none", current_name := iname,
                 offset := wd.frame_off_retaddr dec.ida_func % 2 ^ 64 } ∧
        (map_var_from_decl wd dec "Stack_none").2.ast = dec.ast.rename "Stack_none" iname ∧
        (map_var_from_decl wd dec "Stack_none").1 = wd) ∧
    (wd.get_member dec.ida_func (wd.frame_off_retaddr dec.ida_func % 2 ^ 64) = none →
      wd.add_struc_member_ok dec.ida_func
        (var_name ((2 ^ 32 - dec.ida_func.frregs % 2 ^ 16) % 2 ^ 32))
        (wd.frame_off_retaddr dec.ida_func % 2 ^ 64) = true →
      (map_var_from_decl wd dec "Stack_none").2.locals
          (var_name ((2 ^ 32 - dec.ida_func.frregs % 2 ^ 16) % 2 ^ 32)) =
          some { ghidra_name := "Stack_none"
                 current_name := var_name ((2 ^ 32 - dec.ida_func.frregs % 2 ^ 16) % 2 ^ 32)
                 offset := wd.frame_off_retaddr dec.ida_func % 2 ^ 64 } ∧
        (map_var_from_decl wd dec "Stack_none").2.ast =
          dec.ast.rename "Stack_none"
            (var_name ((2 ^ 32 - dec.ida_func.frregs % 2 ^ 16) % 2 ^ 32)) ∧
        (map_var_from_decl wd dec "Stack_none").1.get_member dec.ida_func
            (wd.frame_off_retaddr dec.ida_func % 2 ^ 64) =
          some (var_name ((2 ^ 32 - dec.ida_func.frregs % 2 ^ 16) % 2 ^ 32))) ∧
    (wd.get_member dec.ida_func (wd.frame_off_retaddr dec.ida_func % 2 ^ 64) = none →
      wd.add_struc_member_ok dec.ida_func
        (var_name ((2 ^ 32 - dec.ida_func.frregs % 2 ^ 16) % 2 ^ 32))
        (wd.frame_off_retaddr dec.ida_func % 2 ^ 64) = false →
      (map_var_from_decl wd dec "Stack_none").2.locals "Stack_none" =
          some { ghidra_name := "Stack_none", current_name := "Stack_none",
                 offset := wd.frame_off_retaddr dec.ida_func % 2 ^ 64 } ∧
        (map_var_from_decl wd dec "Stack_none").2.ast = dec.ast ∧
        (map_var_from_decl wd dec "Stack_none").1 = wd) := by
  have hfind : string_find "Stack_none".data "Stack".data = some 0 := by decide
  have hoff : strtoul0 ("Stack_none".data.drop (0 + 5)) % 2 ^ 32 = 0 := by decide
  have hra : (wd.frame_off_retaddr dec.ida_func + 2 ^ 64 - 0) % 2 ^ 64 =
      wd.frame_off_retaddr dec.ida_func % 2 ^ 64 := by
    rw [Nat.sub_zero, Nat.add_mod_right]
  refine ⟨hfind, hoff, ?_, ?_, ?_⟩
  · intro iname hm
    simp only [map_var_from_decl, hfind, hoff, hra, hm, CMap.set_same, and_self]
  · intro hm hok
    simp only [map_var_from_decl, hfind, hoff, hra, hm, Nat.zero_add, World.add_struc_member,
      hok, if_true, CMap.set_same, and_self]
  · intro hm hok
    simp only [map_var_from_decl, hfind, hoff, hra, hm, Nat.zero_add, World.add_struc_member,
      hok, CMap.set_same, and_self]
    simp

/-! ## Theorems: the navigation history -/

theorem ct_keyboard_escape (L : AstLib) (inp : Inputs) (s : State) (w : TWidget) :
    ct_keyboard L inp s w IK_ESCAPE 0 = escape_key L inp s w := by
  simp [ct_keyboard, IK_ESCAPE, IK_DIVIDE]

theorem ct_keyboard_return (L : AstLib) (inp : Inputs) (s : State) (w : TWidget) :
    ct_keyboard L inp s w IK_RETURN 0 = navigate_to_word L inp s w := by
  simp [ct_keyboard, IK_ESCAPE, IK_DIVIDE, IK_RETURN]

/-- C12: pop of a length-1 history tears the session down. For every view `w` whose
history is a single address, the Escape event returns `true`; the only host call it
adds to the log is `close_widget` (no decompilation, no jump to an address); the
session of `w` is gone from the Session Store, `w` has no title any more, the title it
had is no longer allocated, and the history of `w` still has its one element. -/
theorem escape_single_history_teardown (L : AstLib) (inp : Inputs) (s : State) (w : TWidget)
    (a : Nat) (h : s.histories w = some [a]) :
    ∃ s1, ct_keyboard L inp s w IK_ESCAPE 0 = some (s1, true) ∧
      s1.effects = s.effects ++ [Effect.close_widget w] ∧
      s1.function_map w = none ∧
      s1.views w = none ∧
      (∀ t, s.views w = some t → t ∉ s1.titles) ∧
      s1.histories w = some [a] := by
  rw [ct_keyboard_escape]
  refine ⟨{ s with
            effects := s.effects ++ [Effect.close_widget w]
            views := s.views.erase w
            function_map := s.function_map.erase w
            titles := s.titles.erase ((s.views w).getD []) }, ?_, rfl, ?_, ?_, ?_, h⟩
  · simp [escape_key, h]
  · simp
  · simp
  · intro t ht
    simp [ht]

/-- Witness for C12: Escape on view 1 of the sample navigation state with history
`[0x1000]`. -/
theorem escape_single_history_teardown_witness :
    (ex_nav_state [0x1000]).histories 1 = some [0x1000] ∧
    (ex_nav_state [0x1000]).views 1 = some [65] ∧
    ∃ s1, ct_keyboard ex_lib (ex_nav_inputs 0 none) (ex_nav_state [0x1000]) 1 IK_ESCAPE 0 =
        some (s1, true) ∧
      s1.effects = (ex_nav_state [0x1000]).effects ++ [Effect.close_widget 1] ∧
      s1.function_map 1 = none ∧
      s1.views 1 = none ∧
      (∀ t, (ex_nav_state [0x1000]).views 1 = some t → t ∉ s1.titles) ∧
      s1.histories 1 = some [0x1000] :=
  ⟨rfl, rfl, escape_single_history_teardown ex_lib (ex_nav_inputs 0 none) (ex_nav_state [0x1000])
    1 0x1000 rfl⟩

theorem drill_in_target_some (s : State) (w : TWidget) (inp : Inputs) (ea : Nat)
    (h : drill_in_target s w inp = some ea) :
    ∃ word, current_word s w inp = some word ∧ s.world.get_name_ea BADADDR word = ea ∧
      ea ≠ BADADDR ∧ (is_function_start s.world ea && !is_extern_addr s.world ea) = true := by
  unfold drill_in_target at h
  split at h
  · simp at h
  · rename_i word hw
    dsimp only at h
    split at h
    · rename_i hc
      simp only [Option.some.injEq] at h
      subst h
      exact ⟨word, hw, rfl, hc.1, hc.2⟩
    · simp at h

/-- A drill-in to the address on top of the history changes nothing. -/
theorem navigate_to_top (L : AstLib) (inp : Inputs) (s : State) (w : TWidget) (v : List Nat)
    (ea : Nat) (hh : s.histories w = some v) (hv : v ≠ [])
    (ht : drill_in_target s w inp = some ea) (htop : v.getLast? = some ea) :
    navigate_to_word L inp s w = some (s, true) := by
  obtain ⟨word, h1, h2, h3, h4⟩ := drill_in_target_some s w inp ea ht
  have hlen : ¬ v.length = 0 := fun e => hv (List.length_eq_zero.mp e)
  subst h2
  simp only [navigate_to_word, h1, hh]
  simp [hlen, h3, h4, htop]

/-- A drill-in to an address that is not on top of the history appends it; the
decompilation that follows leaves the history alone. -/
theorem navigate_to_other (L : AstLib) (inp : Inputs) (s : State) (w : TWidget) (v : List Nat)
    (ea : Nat) (hh : s.histories w = some v)
    (ht : drill_in_target s w inp = some ea) (htop : v.getLast? ≠ some ea) :
    ∃ s1, navigate_to_word L inp s w = some (s1, true) ∧
      s1.histories w = some (v ++ [ea]) ∧
      decompile_at L inp { s with histories := s.histories.set w (v ++ [ea]) } ea (some w) =
        some s1 := by
  obtain ⟨word, h1, h2, h3, h4⟩ := drill_in_target_some s w inp ea ht
  obtain ⟨s1, hs1⟩ := Option.isSome_iff_exists.mp
    (decompile_at_isSome L inp { s with histories := s.histories.set w (v ++ [ea]) } ea (some w))
  obtain ⟨_, _, a3, _, _⟩ := decompile_at_view L inp _ s1 ea w hs1
  refine ⟨s1, ?_, ?_, hs1⟩
  · subst h2
    simp only [navigate_to_word, h1, hh]
    simp [htop, hs1, h3, h4]
  · rw [a3]; simp

/-- C13: push is idempotent on the top. The view `w` has a non-empty history `v` and
the event is a drill-in to `ea`, the start of a function outside the `extern` segment.
If `ea` is the top of `v`, the plugin state is unchanged: same history and no host call
(so no re-decompilation). If `ea` is not the top, the history becomes `v` with exactly
`ea` appended. Hence a run of any number of drill-ins to the address on top leaves the
state, and with it the history and its length, unchanged. -/
theorem push_idempotent_on_top (L : AstLib) (inp : Inputs) (s : State) (w : TWidget)
    (v : List Nat) (ea : Nat) (hh : s.histories w = some v) (hv : v ≠ [])
    (ht : drill_in_target s w inp = some ea) :
    (v.getLast? = some ea → navigate_to_word L inp s w = some (s, true)) ∧
    (v.getLast? ≠ some ea → ∃ s1, navigate_to_word L inp s w = some (s1, true) ∧
      s1.histories w = some (v ++ [ea])) ∧
    (∀ inps : List Inputs, (∀ i ∈ inps, drill_in_target s w i = v.getLast?) →
      navigate_events L w inps s = some s) := by
  refine ⟨navigate_to_top L inp s w v ea hh hv ht, ?_, ?_⟩
  · intro htop
    obtain ⟨s1, e1, e2, _⟩ := navigate_to_other L inp s w v ea hh ht htop
    exact ⟨s1, e1, e2⟩
  · intro inps
    induction inps with
    | nil => intro _; rfl
    | cons i rest ih =>
      intro hall
      obtain ⟨top, htop⟩ : ∃ top, v.getLast? = some top := by
        cases hl : v.getLast? with
        | none => exact absurd (List.getLast?_eq_none_iff.mp hl) hv
        | some top => exact ⟨top, rfl⟩
      have hi : drill_in_target s w i = some top := by
        rw [hall i (by simp), htop]
      have := navigate_to_top L i s w v top hh hv hi htop
      simp only [navigate_events, this]
      exact ih (fun j hj => hall j (by simp [hj]))

/-- Witness for C13: in the sample navigation state with history `[0x1000]`, a drill-in
to `helper` (at `0x2000`) appends `0x2000`, and repeated drill-ins to `main` (at
`0x1000`, the top) change nothing. -/
theorem push_idempotent_on_top_witness :
    drill_in_target (ex_nav_state [0x1000]) 1 (ex_nav_inputs 0 (some ex_tree)) = some 0x2000 ∧
    drill_in_target (ex_nav_state [0x1000]) 1 (ex_nav_inputs 1 (some ex_tree)) = some 0x1000 ∧
    (∃ s1, navigate_to_word ex_lib (ex_nav_inputs 0 (some ex_tree)) (ex_nav_state [0x1000]) 1 =
        some (s1, true) ∧ s1.histories 1 = some ([0x1000] ++ [0x2000])) ∧
    navigate_events ex_lib 1 [ex_nav_inputs 1 (some ex_tree), ex_nav_inputs 1 none]
      (ex_nav_state [0x1000]) = some (ex_nav_state [0x1000]) :=
  ⟨by decide, by decide,
    (push_idempotent_on_top ex_lib (ex_nav_inputs 0 (some ex_tree)) (ex_nav_state [0x1000]) 1
      [0x1000] 0x2000 rfl (by decide) (by decide)).2.1 (by decide),
    (push_idempotent_on_top ex_lib (ex_nav_inputs 0 (some ex_tree)) (ex_nav_state [0x1000]) 1
      [0x1000] 0x2000 rfl (by decide) (by decide)).2.2
      [ex_nav_inputs 1 (some ex_tree), ex_nav_inputs 1 none]
      (by intro i hi
          simp only [List.mem_cons, List.mem_singleton, List.not_mem_nil, or_false] at hi
          rcases hi with rfl | rfl <;> decide)⟩

/-! ## Theorems: decompilation failure -/

/-- When the decompiler delivers no tree, `decompile_at` returns and changes nothing
but the log of host calls. -/
theorem decompile_at_fail (L : AstLib) (inp : Inputs) (s : State) (addr : Nat)
    (w : Option TWidget) (hfail : inp.decompiled = none) :
    ∃ s1, decompile_at L inp s addr w = some s1 ∧ s1.world = s.world ∧
      s1.histories = s.histories ∧ s1.views = s.views ∧ s1.function_map = s.function_map ∧
      s1.titles = s.titles ∧ s1.text = s.text := by
  unfold decompile_at
  simp only [hfail]
  split
  · exact ⟨s, rfl, rfl, rfl, rfl, rfl, rfl, rfl⟩
  · exact ⟨_, rfl, rfl, rfl, rfl, rfl, rfl, rfl⟩

/-- C14, as stated, fails: the history is written before the decompiler is asked. In
the sample navigation state, a drill-in from `main` to `helper` whose decompilation
delivers no tree leaves the history `[0x1000, 0x2000]` instead of `[0x1000]`; and an
Escape on the history `[0x1000, 0x2000]` whose decompilation delivers no tree leaves
the history `[0x1000]`. -/
theorem decompile_failure_changes_history :
    (ex_nav_inputs 0 none).decompiled = none ∧
    (ex_nav_state [0x1000]).histories 1 = some [0x1000] ∧
    (ct_keyboard ex_lib (ex_nav_inputs 0 none) (ex_nav_state [0x1000]) 1 IK_RETURN 0).map
        (fun r => (r.1.histories 1, r.2)) = some (some [0x1000, 0x2000], true) ∧
    (ex_nav_state [0x1000, 0x2000]).histories 1 = some [0x1000, 0x2000] ∧
    (ct_keyboard ex_lib (ex_nav_inputs 0 none) (ex_nav_state [0x1000, 0x2000]) 1 IK_ESCAPE 0).map
        (fun r => (r.1.histories 1, r.2)) = some (some [0x1000], true) := by
  decide

/-- C14, amended: when the decompiler delivers no tree, a drill-in navigation and a
back-navigation (Escape with history length above 1) on a view leave the Session Store
(so the view's tree and Name-Sync Table), the titles and the displayed text exactly as
before the event, but not the Navigation History: a drill-in to an address `ea` that
is not on top of the history has appended `ea`, and the back-navigation has removed
the top element. -/
theorem decompile_failure_keeps_session_not_history (L : AstLib) (inp : Inputs) (s : State)
    (w : TWidget) (hfail : inp.decompiled = none) :
    (∀ v ea, s.histories w = some v → drill_in_target s w inp = some ea →
      v.getLast? ≠ some ea →
      ∃ s1, navigate_to_word L inp s w = some (s1, true) ∧
        s1.function_map = s.function_map ∧ s1.views = s.views ∧ s1.titles = s.titles ∧
        s1.text = s.text ∧ s1.histories w = some (v ++ [ea])) ∧
    (∀ v, s.histories w = some v → 1 < v.length →
      ∃ s1, ct_keyboard L inp s w IK_ESCAPE 0 = some (s1, true) ∧
        s1.function_map = s.function_map ∧ s1.views = s.views ∧ s1.titles = s.titles ∧
        s1.text = s.text ∧ s1.histories w = some v.dropLast) := by
  constructor
  · intro v ea hh ht htop
    obtain ⟨s1, e1, e2, e3⟩ := navigate_to_other L inp s w v ea hh ht htop
    obtain ⟨s2, f1, _, _, f4, f5, f6, f7⟩ :=
      decompile_at_fail L inp { s with histories := s.histories.set w (v ++ [ea]) } ea (some w)
        hfail
    rw [e3] at f1
    simp only [Option.some.injEq] at f1
    subst f1
    exact ⟨s1, e1, f5, f4, f6, f7, e2⟩
  · intro v hh hlen
    rw [ct_keyboard_escape]
    have hne : ¬ v.length = 1 := by omega
    obtain ⟨back, hback⟩ : ∃ back, v.dropLast.getLast? = some back := by
      cases hl : v.dropLast.getLast? with
      | none =>
        have := List.getLast?_eq_none_iff.mp hl
        have h2 := congrArg List.length this
        simp at h2
        omega
      | some back => exact ⟨back, rfl⟩
    obtain ⟨s2, f1, _, f3, f4, f5, f6, f7⟩ :=
      decompile_at_fail L inp { s with histories := s.histories.set w v.dropLast } back (some w)
        hfail
    refine ⟨s2, ?_, f5, f4, f6, f7, ?_⟩
    · simp [escape_key, hh, hne, hback, f1]
    · rw [f3]; simp

/-- Witness for C14: the two failing events of the sample navigation state. -/
theorem decompile_failure_keeps_session_not_history_witness :
    (ex_nav_inputs 0 none).decompiled = none ∧
    (∃ s1, navigate_to_word ex_lib (ex_nav_inputs 0 none) (ex_nav_state [0x1000]) 1 =
          some (s1, true) ∧
        s1.function_map = (ex_nav_state [0x1000]).function_map ∧
        s1.views = (ex_nav_state [0x1000]).views ∧
        s1.titles = (ex_nav_state [0x1000]).titles ∧
        s1.text = (ex_nav_state [0x1000]).text ∧
        s1.histories 1 = some ([0x1000] ++ [0x2000])) ∧
    (∃ s1, ct_keyboard ex_lib (ex_nav_inputs 0 none) (ex_nav_state [0x1000, 0x2000]) 1
          IK_ESCAPE 0 = some (s1, true) ∧
        s1.function_map = (ex_nav_state [0x1000, 0x2000]).function_map ∧
        s1.views = (ex_nav_state [0x1000, 0x2000]).views ∧
        s1.titles = (ex_nav_state [0x1000, 0x2000]).titles ∧
        s1.text = (ex_nav_state [0x1000, 0x2000]).text ∧
        s1.histories 1 = some [0x1000, 0x2000].dropLast) :=
  ⟨rfl,
    (decompile_failure_keeps_session_not_history ex_lib (ex_nav_inputs 0 none)
      (ex_nav_state [0x1000]) 1 rfl).1 [0x1000] 0x2000 rfl (by decide) (by decide),
    (decompile_failure_keeps_session_not_history ex_lib (ex_nav_inputs 0 none)
      (ex_nav_state [0x1000, 0x2000]) 1 rfl).2 [0x1000, 0x2000] rfl (by decide)⟩

/-! ## Theorems: token extraction -/

theorem is_word_char_nul : is_word_char (Char.ofNat 0) = false := by decide

theorem byte_at_ge (buf : List Char) (i : Nat) (h : buf.length ≤ i) :
    byte_at buf i = Char.ofNat 0 := by
  unfold byte_at
  rw [List.getD_eq_getElem?_getD, List.getElem?_eq_none h]
  rfl

theorem word_char_lt (buf : List Char) (i : Nat) (h : is_word_char (byte_at buf i) = true) :
    i < buf.length := by
  by_contra hn
  rw [byte_at_ge buf i (by omega), is_word_char_nul] at h
  exact Bool.false_ne_true h

/-- The forward scan stops at the first index from `e` on that holds no word character
(the end of the line included), and passes only word characters. -/
theorem scan_end_spec (buf : List Char) : ∀ (n e : Nat), e ≤ buf.length → buf.length - e < n →
    e ≤ scan_end buf n e ∧ scan_end buf n e ≤ buf.length ∧
    (∀ k, e ≤ k → k < scan_end buf n e → is_word_char (byte_at buf k) = true) ∧
    (scan_end buf n e = buf.length ∨ is_word_char (byte_at buf (scan_end buf n e)) = false) := by
  intro n
  induction n with
  | zero => intro e _ h; omega
  | succ m ih =>
    intro e he hfuel
    simp only [scan_end]
    by_cases hw : is_word_char (byte_at buf e) = true
    · have hlt := word_char_lt buf e hw
      have hnz : byte_at buf e ≠ Char.ofNat 0 := by
        intro h0
        rw [h0, is_word_char_nul] at hw
        exact Bool.false_ne_true hw
      have hcond : (is_word_char (byte_at buf e) && byte_at buf e != Char.ofNat 0) = true := by
        simp [hw, hnz]
      rw [if_pos hcond]
      obtain ⟨a1, a2, a3, a4⟩ := ih (e + 1) (by omega) (by omega)
      refine ⟨by omega, a2, ?_, a4⟩
      intro k hk1 hk2
      by_cases hke : k = e
      · rw [hke]; exact hw
      · exact a3 k (by omega) hk2
    · have hcond : ¬ (is_word_char (byte_at buf e) && byte_at buf e != Char.ofNat 0) = true := by
        simp [hw]
      rw [if_neg hcond]
      refine ⟨le_refl _, he, ?_, Or.inr (by simpa using hw)⟩
      intro k hk1 hk2
      omega

/-- The backward scan stops at the first index from `p` down whose predecessor holds no
word character (index 0 included), and passes only word characters. -/
theorem scan_begin_spec (buf : List Char) : ∀ (n p : Nat), p < n →
    scan_begin buf n p ≤ p ∧
    (∀ k, scan_begin buf n p ≤ k → k < p → is_word_char (byte_at buf k) = true) ∧
    (scan_begin buf n p = 0 ∨ is_word_char (byte_at buf (scan_begin buf n p - 1)) = false) := by
  intro n
  induction n with
  | zero => intro p h; omega
  | succ m ih =>
    intro p hp
    simp only [scan_begin]
    by_cases hc : (decide (0 < p) && is_word_char (byte_at buf (p - 1))) = true
    · rw [if_pos hc]
      simp only [Bool.and_eq_true, decide_eq_true_eq] at hc
      obtain ⟨a1, a2, a3⟩ := ih (p - 1) (by omega)
      refine ⟨by omega, ?_, a3⟩
      intro k hk1 hk2
      by_cases hke : k = p - 1
      · rw [hke]; exact hc.2
      · exact a2 k hk1 (by omega)
    · rw [if_neg hc]
      refine ⟨le_refl _, fun k hk1 hk2 => by omega, ?_⟩
      simp only [Bool.and_eq_true, decide_eq_true_eq, not_and, Bool.not_eq_true] at hc
      by_cases h0 : p = 0
      · exact Or.inl h0
      · exact Or.inr (hc (by omega))

/-- C15: token extraction returns the maximal identifier run at the column. For every
line `buf` and column `x`, `get_current_word` fails exactly when `x` is not a valid
index of the line (negative, or at or beyond its length) or the character at `x` is not
a letter, a digit or an underscore; and whenever it returns a word, that word is the
substring `buf[i..j)` with `i ≤ x < j ≤ |buf|`, every character of which is a letter,
digit or underscore, with `i = 0` or `buf[i-1]` not such a character, and `j = |buf|` or
`buf[j]` not such a character. -/
theorem get_current_word_maximal_run (buf : List Char) (x : Int) :
    (get_current_word buf x = none ↔
      (x < 0 ∨ buf.length ≤ x.toNat ∨ is_word_char (byte_at buf x.toNat) = false)) ∧
    (∀ word, get_current_word buf x = some word →
      ∃ i j, i ≤ x.toNat ∧ x.toNat < j ∧ j ≤ buf.length ∧
        word = (buf.drop i).take (j - i) ∧
        (∀ k, i ≤ k → k < j → is_word_char (byte_at buf k) = true) ∧
        (i = 0 ∨ is_word_char (byte_at buf (i - 1)) = false) ∧
        (j = buf.length ∨ is_word_char (byte_at buf j) = false)) := by
  by_cases hx : x < 0 ∨ buf.length ≤ x.toNat
  · have hnone : get_current_word buf x = none := by simp [get_current_word, hx]
    refine ⟨⟨fun _ => ?_, fun _ => hnone⟩, ?_⟩
    · rcases hx with h | h
      · exact Or.inl h
      · exact Or.inr (Or.inl h)
    · intro word hw
      rw [hnone] at hw
      exact absurd hw (by simp)
  · have hlt : x.toNat < buf.length := by
      by_contra hn
      exact hx (Or.inr (by omega))
    have hneg : ¬ x < 0 := fun h => hx (Or.inl h)
    obtain ⟨e1, e2, e3, e4⟩ := scan_end_spec buf (buf.length + 1) x.toNat (by omega) (by omega)
    obtain ⟨b1, b2, b3⟩ := scan_begin_spec buf (buf.length + 1) x.toNat (by omega)
    by_cases hw : is_word_char (byte_at buf x.toNat) = true
    · have hgt : x.toNat < scan_end buf (buf.length + 1) x.toNat := by
        rcases e4 with h | h
        · omega
        · by_contra hn
          have heq : scan_end buf (buf.length + 1) x.toNat = x.toNat := by omega
          rw [heq, hw] at h
          exact Bool.false_ne_true h.symm
      have hne : ¬ scan_end buf (buf.length + 1) x.toNat = x.toNat := by omega
      have hsome : get_current_word buf x =
          some ((buf.drop (scan_begin buf (buf.length + 1) x.toNat)).take
            (scan_end buf (buf.length + 1) x.toNat - scan_begin buf (buf.length + 1) x.toNat)) := by
        simp [get_current_word, hx, hne]
      refine ⟨⟨fun h => ?_, fun h => ?_⟩, ?_⟩
      · rw [hsome] at h
        exact absurd h (by simp)
      · rcases h with h | h | h
        · exact absurd h hneg
        · omega
        · rw [hw] at h
          exact absurd h (by simp)
      · intro word hword
        rw [hsome] at hword
        simp only [Option.some.injEq] at hword
        refine ⟨_, _, b1, hgt, e2, hword.symm, ?_, b3, e4⟩
        intro k hk1 hk2
        by_cases hkx : k < x.toNat
        · exact b2 k hk1 hkx
        · exact e3 k (by omega) hk2
    · have heq : scan_end buf (buf.length + 1) x.toNat = x.toNat := by
        by_contra hn
        exact hw (e3 x.toNat (le_refl _) (by omega))
      have hnone : get_current_word buf x = none := by
        simp [get_current_word, hx, heq]
      refine ⟨⟨fun _ => Or.inr (Or.inr (by simpa using hw)), fun _ => hnone⟩, ?_⟩
      intro word hword
      rw [hnone] at hword
      exact absurd hword (by simp)

/-- Token extraction on a sample line: the run `c_d1` around column 4, and no token on
the semicolon, on a blank, or outside the line. -/
theorem get_current_word_samples :
    get_current_word "ab c_d1;".data 4 = some "c_d1".data ∧
    get_current_word "ab c_d1;".data 6 = some "c_d1".data ∧
    get_current_word "ab c_d1;".data 7 = none ∧
    get_current_word "ab c_d1;".data 2 = none ∧
    get_current_word "ab c_d1;".data 8 = none ∧
    get_current_word "ab c_d1;".data (-1) = none := by
  decide

/-! ## Theorems: whole populations -/

theorem mem_first_letters (k c : Nat) : [c] ∈ first_letters k ↔ 65 ≤ c ∧ c < 65 + k := by
  simp only [first_letters, Finset.mem_image, Finset.mem_range, List.cons.injEq, and_true]
  constructor
  · rintro ⟨i, hi, rfl⟩; omega
  · intro h; exact ⟨c - 65, by omega, by omega⟩

/-- C16: odometer growth. The set `ex_letters` holds exactly the 26 single-letter
titles "A".."Z"; with it allocated `get_available_title` returns, and returns "AA".
With nothing freed the allocation sequence is A, B, ..., Z, AA: when the first `k`
letters are allocated (`k < 26`) the next title is letter number `k`, and when all 26
are allocated it is "AA". The round of the loop that yields "AA" starts from the
string "Z": the carry out of its last character resets it to `'A'` and appends a new
`'A'`, growing the string from one character to two. -/
theorem odometer_growth :
    (∀ a : Title, a ∈ ex_letters ↔ ∃ c, 65 ≤ c ∧ c ≤ 90 ∧ a = [c]) ∧
    get_available_title ex_letters = some [65, 65] ∧
    (∀ k, k < 26 → get_available_title (first_letters k) = some [65 + k]) ∧
    get_available_title (first_letters 26) = some [65, 65] ∧
    (next_title^[2365] { chars := [65], term := 0 }).chars = [90] ∧
    next_title (next_title^[2365] { chars := [65], term := 0 }) =
      { chars := [65, 65], term := 0 } := by
  refine ⟨?_, get_available_title_letters, ?_, get_available_title_letters, ?_, ?_⟩
  · intro a
    constructor
    · intro ha
      simp only [ex_letters, Finset.mem_image, Finset.mem_range] at ha
      obtain ⟨i, hi, rfl⟩ := ha
      exact ⟨65 + i, by omega, by omega, rfl⟩
    · rintro ⟨c, h1, h2, rfl⟩
      exact (mem_ex_letters c).mpr ⟨h1, h2⟩
  · intro k hk
    refine get_available_title_eq _ _ ?_ ?_ ?_ (by simp)
    · intro c hc
      simp only [List.mem_singleton] at hc
      subst hc
      omega
    · intro hm
      have := (mem_first_letters k (65 + k)).mp hm
      omega
    · intro a ha hane hlt
      unfold odo_lt at hlt
      simp only [List.length_singleton, title_val] at hlt
      rcases hlt with hl | ⟨hl, hv⟩
      · have : a.length = 0 := by omega
        exact absurd (List.length_eq_zero.mp this) hane
      · obtain ⟨d, rfl⟩ := List.length_eq_one.mp hl
        have hd := ha d (by simp)
        simp only [title_val] at hv
        exact (mem_first_letters k d).mpr (by omega)
  · rw [letters_iterate 2365 (by omega)]
  · rw [letters_iterate 2365 (by omega), next_title_eq]
    rfl

end Blc
